import Mathlib

/-!
Verification of the `taskrunner` (runcommands) command framework.

Shallow embedding of the parts of the source needed by the claims:
* `runcommands/result.py` — `Result`
* `runcommands/util/string.py` — `camel_to_underscore`, `load_json_value`
* `runcommands/command.py` — `Command.normalize_name`, option allocation
  (`arg_names_for_param` / `param_map` / `arg_map`), `Command.__call__`
  argument resolution, and the `parse_args` post-processing loop
* `runcommands/run.py` — `partition_argv` over the `run` command's options
-/

namespace Taskrunner

/-! ### Definitions: shallow embedding of the source -/

/-- Model of the Python values the embedded code manipulates. -/
inductive PyValue : Type where
  | none : PyValue
  | bool : Bool → PyValue
  | int : Int → PyValue
  | str : String → PyValue
deriving DecidableEq, Repr


/-- `Result.__init__` stores args, return code and the two output streams and
derives `succeeded`/`failed` from the return code (result.py lines 11-17). -/
structure Result where
  args : List String
  return_code : Int
  stdout : String
  stderr : String
  succeeded : Bool
  failed : Bool
deriving DecidableEq, Repr

/-- `Result(args, return_code, stdout, stderr)`: the constructor from
result.py; `succeeded = (return_code == 0)`, `failed = not succeeded`. -/
def Result.make (args : List String) (return_code : Int)
    (stdout stderr : String) : Result :=
  { args := args
    return_code := return_code
    stdout := stdout
    stderr := stderr
    succeeded := return_code == 0
    failed := !(return_code == 0) }

/-- `Result.__bool__` (result.py lines 48-49) returns `self.succeeded`. -/
def Result.toBool (r : Result) : Bool := r.succeeded


/-- Python regex `\w` word character (ASCII scope; the names this code
normalizes are Python identifiers). -/
def isWordChar (c : Char) : Bool := c.isAlphanum || c = '_'

/-- The lookbehind `(?<!\b)(?<!_)` of `camel_to_underscore`: both patterns
start with a word character, so "previous position is not a boundary" means
a previous character exists and is a word character; it must also not be an
underscore. -/
def prevOk : Option Char → Bool
  | some c => isWordChar c && c != '_'
  | none => false

/-- First substitution of `camel_to_underscore` (string.py line 40):
`re.sub(r'(?<!\b)(?<!_)([A-Z][a-z])', r'_\1', name)`, as a left-to-right
non-overlapping scan carrying the previously scanned character. -/
def camelSub1 : Option Char → List Char → List Char
  | _, [] => []
  | _, [c] => [c]
  | prev, c1 :: c2 :: rest =>
    if c1.isUpper && c2.isLower && prevOk prev then
      '_' :: c1 :: c2 :: camelSub1 (some c2) rest
    else
      c1 :: camelSub1 (some c1) (c2 :: rest)

/-- Second substitution of `camel_to_underscore` (string.py line 41):
`re.sub(r'(?<!\b)(?<!_)([a-z])([A-Z])', r'\1_\2', name)`. -/
def camelSub2 : Option Char → List Char → List Char
  | _, [] => []
  | _, [c] => [c]
  | prev, c1 :: c2 :: rest =>
    if c1.isLower && c2.isUpper && prevOk prev then
      c1 :: '_' :: c2 :: camelSub2 (some c2) rest
    else
      c1 :: camelSub2 (some c1) (c2 :: rest)

/-- `camel_to_underscore` (string.py lines 5-43): the two substitutions
followed by `str.lower()` (ASCII lowering; the inputs are identifiers). -/
def camel_to_underscore (name : String) : String :=
  String.mk ((camelSub2 none (camelSub1 none name.toList)).map Char.toLower)

/-- Finishing steps of `Command.normalize_name` (command.py lines 302-303):
`name.replace('_', '-')` then `name.lower()`. -/
def normalizeFinish (cs : List Char) : String :=
  String.mk ((cs.map fun ch => if ch = '_' then '-' else ch).map Char.toLower)

/-- `Command.normalize_name` (command.py lines 294-304).  A single trailing
underscore is chomped unless the second-to-last character is also an
underscore; on the one-character name `"_"` the Python code evaluates
`name[-2]` and raises `IndexError`, modelled as `none`. -/
def normalize_name (name : String) : Option String :=
  if name.toList.reverse.head? = some '_' then
    if name.toList.reverse.tail = [] then none
    else if name.toList.reverse.tail.head? = some '_' then
      some (normalizeFinish name.toList)
    else some (normalizeFinish name.toList.reverse.tail.reverse)
  else some (normalizeFinish name.toList)

/-- JSON whitespace accepted by `json.loads` around a document. -/
def isJsonWs (c : Char) : Bool := c = ' ' || c = '\t' || c = '\n' || c = '\r'

/-- A character our modelled JSON string literals accept unescaped:
not a quote, not a backslash, not a control character. -/
def isPlainStrChar (c : Char) : Bool := c ≠ '"' && c ≠ '\\' && c.toNat ≥ 0x20

/-- Body of a JSON string literal (after the opening quote, which must end
with the closing quote); escapes are outside the modelled fragment. -/
def jsonStringBody : List Char → Option (List Char)
  | [] => Option.none
  | ['"'] => some []
  | c :: rest =>
    if isPlainStrChar c then (jsonStringBody rest).map (c :: ·) else Option.none

/-- JSON integer digits: nonempty, all digits, no leading zero unless the
number is exactly `0`. -/
def jsonDigitsOk (ds : List Char) : Bool :=
  !ds.isEmpty && ds.all Char.isDigit && !(decide (1 < ds.length) && (ds.head? == some '0'))

/-- Numeric value of a digit list. -/
def natOfDigits (ds : List Char) : Nat :=
  ds.foldl (fun a c => a * 10 + (c.toNat - 48)) 0

/-- JSON integer literal, with optional leading minus sign. -/
def jsonInt? (t : List Char) : Option Int :=
  match t with
  | '-' :: ds => if jsonDigitsOk ds then some (-(natOfDigits ds : Int)) else Option.none
  | ds => if jsonDigitsOk ds then some ((natOfDigits ds : Int)) else Option.none

/-- Model of `json.loads` restricted to the fragment the claims exercise:
`null`, `true`, `false`, integer literals and simple string literals,
with surrounding whitespace.  Other documents (arrays, objects, floats,
escaped strings) are treated as undecodable. -/
def jsonLoads (s : String) : Option PyValue :=
  let t := ((s.toList.dropWhile isJsonWs).reverse.dropWhile isJsonWs).reverse
  match t with
  | '"' :: rest => (jsonStringBody rest).map (fun cs => .str (String.mk cs))
  | _ =>
    if t = "null".toList then some .none
    else if t = "true".toList then some (.bool true)
    else if t = "false".toList then some (.bool false)
    else match jsonInt? t with
      | some n => some (.int n)
      | Option.none => Option.none

/-- `load_json_value` (string.py lines 46-66): the empty string maps to
`None`; otherwise decode as JSON, and on decode failure return the raw
string when tolerant, else raise `ValueError` (modelled as `none`). -/
def load_json_value (s : String) (tolerant : Bool := true) : Option PyValue :=
  if s = "" then some .none
  else match jsonLoads s with
    | some v => some v
    | Option.none => if tolerant then some (.str s) else Option.none


/-- The slice of `Parameter` (command.py lines 611-672) that option
allocation and argument resolution consume: normalized name, original
Python parameter name, manually specified short option (from the `Arg`
annotation), and the classification flags set in `Parameter.__init__`. -/
structure Param where
  name : String
  real_name : String
  short_option : Option String
  is_positional : Bool
  is_keyword_only : Bool
  is_bool : Bool
  is_bool_or : Bool
  is_help_parameter : Bool
deriving DecidableEq, Repr

/-- `Parameter.takes_value` (command.py line 672):
`is_positional or (is_optional and not is_bool)`, with
`is_optional = not is_positional`. -/
def Param.takes_value (p : Param) : Bool :=
  p.is_positional || (!p.is_positional && !p.is_bool)

/-- The synthetic `HelpParameter` (command.py lines 685-705). -/
def helpParam : Param :=
  { name := "help", real_name := "help", short_option := some "-h"
    is_positional := false, is_keyword_only := false, is_bool := true
    is_bool_or := false, is_help_parameter := true }

/-- `self.used_short_options`: a dict from short option string to the name
of the parameter using it. -/
abbrev UsedShort := List (String × String)

def lookupUsed : UsedShort → String → Option String
  | [], _ => Option.none
  | e :: rest, s => if e.1 = s then some e.2 else lookupUsed rest s

/-- Python dict assignment `used[s] = n` (insert or overwrite in place). -/
def insertUsed (used : UsedShort) (s n : String) : UsedShort :=
  match used with
  | [] => [(s, n)]
  | e :: rest => if e.1 = s then (s, n) :: rest else e :: insertUsed rest s n

/-- The `for char in candidates` loop of `arg_names_for_param`
(command.py lines 357-363): take the first candidate `-<char>` that is
unused or already used for this same name, recording the allocation. -/
def pickShort (name : String) (used : UsedShort) :
    List Char → Option String × UsedShort
  | [] => (Option.none, used)
  | c :: rest =>
    let short_name := String.mk ['-', c]
    match lookupUsed used short_name with
    | Option.none => (some short_name, insertUsed used short_name name)
    | some used_for =>
      if used_for = name then (some short_name, insertUsed used short_name name)
      else pickShort name used rest

/-- Tail of `arg_names_for_param` (command.py lines 365-381): append the
long option and, for booleans and boolean-or-value parameters, the inverse
long option (`--no-name`, with swapped forms for parameters literally named
`yes`/`no`; the help parameter gets no inverse). -/
def appendLongNames (param : Param) (shorts : List String) : List String :=
  let name := param.name
  let long_name := "--" ++ name
  let default_no_long_name := "--no-" ++ name
  let arg_names := shorts ++ [long_name]
  if param.is_bool_or then arg_names ++ [default_no_long_name]
  else if param.is_bool then
    let no_long_name :=
      if name = "yes" then "--no"
      else if name = "no" then "--yes"
      else default_no_long_name
    if !param.is_help_parameter then arg_names ++ [no_long_name]
    else arg_names
  else arg_names

/-- Python `name.startswith('_')`, in a kernel-reducible form. -/
def startsUnderscore (s : String) : Bool := s.toList.head? == some '_'

/-- The `candidates` tuple computed by `arg_names_for_param` for a
parameter without a manual short option (command.py lines 331-355):
`echo` is forced to `-E`, `help` to `-h`, `hide` to `-H`, other names
starting with `e`/`h` are suppressed or pushed to uppercase when the
sibling `echo`/`hide` parameter exists, and all other names try their
first character and then its uppercase form. -/
def codeCandidates (name : String) (paramNames : List String) : List Char :=
  let first_char := name.front
  let first_char_upper := first_char.toUpper
  if first_char = 'e' then
    if name = "echo" then ['E']
    else if "echo" ∉ paramNames then [first_char, first_char_upper]
    else []
  else if first_char = 'h' then
    if name = "help" then [first_char]
    else if name = "hide" then ['H']
    else if "hide" ∉ paramNames then [first_char_upper]
    else []
  else [first_char, first_char_upper]

/-- `Command.arg_names_for_param` (command.py lines 306-381): returns the
command-line names allocated to `param` and the updated
`used_short_options` table, or a `CommandError` when a manually specified
short option is already used for a different parameter.  `paramNames` is
the key set of `self.parameters`, consulted by the `'echo' in params` and
`'hide' in params` checks. -/
def arg_names_for_param (paramNames : List String) (used : UsedShort)
    (param : Param) : Except String (List String × UsedShort) :=
  let name := param.name
  if startsUnderscore name then .ok ([], used)
  else if param.is_positional then .ok ([param.real_name], used)
  else if param.is_keyword_only then .ok ([], used)
  else
    match param.short_option with
    | some short_name =>
      match lookupUsed used short_name with
      | some used_for =>
        if used_for ≠ name then
          .error "CommandError: short option already used"
        else .ok (appendLongNames param [short_name], insertUsed used short_name name)
      | Option.none =>
        .ok (appendLongNames param [short_name], insertUsed used short_name name)
    | Option.none =>
      let pick := pickShort name used (codeCandidates name paramNames)
      .ok (appendLongNames param pick.1.toList, pick.2)

/-- Fold of `arg_names_for_param` over a parameter list, threading
`used_short_options` and collecting each parameter with its names. -/
def allocAll (paramNames : List String) :
    List Param → UsedShort →
    Except String (List (Param × List String) × UsedShort)
  | [], used => .ok ([], used)
  | p :: rest, used =>
    match arg_names_for_param paramNames used p with
    | .error e => .error e
    | .ok (names, used') =>
      match allocAll paramNames rest used' with
      | .error e => .error e
      | .ok (tail, usedF) => .ok ((p, names) :: tail, usedF)

/-- Allocation order of `Command.param_map` (command.py lines 445-448):
parameters with a manual short option first, then the rest. -/
def allocOrder (params : List Param) : List Param :=
  params.filter (fun p => p.short_option.isSome)
    ++ params.filter (fun p => !p.short_option.isSome)

/-- `Command.param_map` (command.py lines 439-453): maps each parameter
name, in declaration order, to its allocated command-line names (empty when
none were allocated). -/
def param_map (params : List Param) :
    Except String (List (String × List String)) :=
  match allocAll (params.map Param.name) (allocOrder params) [] with
  | .error e => .error e
  | .ok (alloc, _) =>
    .ok (params.map fun p =>
      (p.name, ((alloc.find? (fun e => e.1.name = p.name)).map (·.2)).getD []))

/-- Python dict assignment for the arg map (overwrite in place). -/
def argMapAssign (m : List (String × Param)) (key : String) (p : Param) :
    List (String × Param) :=
  match m with
  | [] => [(key, p)]
  | e :: rest => if e.1 = key then (key, p) :: rest else e :: argMapAssign rest key p

/-- `Command.arg_map` (command.py lines 427-437): map each allocated
command-line name to its parameter; a later assignment overwrites an
earlier one, as with the Python dict. -/
def arg_map (params : List Param) : Except String (List (String × Param)) :=
  match param_map params with
  | .error e => .error e
  | .ok pm =>
    .ok (pm.foldl (fun m entry =>
      match params.find? (fun p => p.name = entry.1) with
      | some p => entry.2.foldl (fun m' an => argMapAssign m' an p) m
      | Option.none => m) [])

/-- Short-option candidate policy exactly as claim C3 words it: first
character then its uppercase form; `help` always `-h`; any other name
starting with `h` only the uppercase form. -/
def claimShortCandidates (name : String) : List Char :=
  if name = "help" then ['h']
  else if name.front = 'h' then [name.front.toUpper]
  else [name.front, name.front.toUpper]

/-- Short-option candidate policy as the code actually implements it
(amended claim C3), stated by reserved name first: `help ↦ h`,
`echo ↦ E`, `hide ↦ H`; other names starting with `e` try first char then
uppercase only when no `echo` parameter exists (otherwise nothing); other
names starting with `h` try only the uppercase form and only when no
`hide` parameter exists; remaining names try first char then uppercase. -/
def amendedShortCandidates (name : String) (paramNames : List String) :
    List Char :=
  if name = "help" then ['h']
  else if name = "echo" then ['E']
  else if name = "hide" then ['H']
  else if name.front = 'e' then
    if "echo" ∈ paramNames then [] else ['e', 'E']
  else if name.front = 'h' then
    if "hide" ∈ paramNames then [] else ['H']
  else [name.front, name.front.toUpper]

/-- The first candidate that is free (unused, or recorded for this very
name): the chooser the allocation policy describes, without the state
threading of `pickShort`. -/
def firstFreeShort (name : String) (used : UsedShort) :
    List Char → Option String
  | [] => Option.none
  | c :: rest =>
    let s := String.mk ['-', c]
    match lookupUsed used s with
    | Option.none => some s
    | some used_for =>
      if used_for = name then some s else firstFreeShort name used rest


/-- A short option string: a dash followed by one non-dash character
(the shape produced by automatic allocation and enforced for manual short
options by the `Arg.short_option_regex` `^-\w$`). -/
def isShortOpt (s : String) : Bool :=
  match s.toList with
  | ['-', c] => c ≠ '-'
  | _ => false

/-- A parameter that reaches the allocation branch of
`arg_names_for_param`: optional, not keyword-only, not internal. -/
def allocatable (p : Param) : Prop :=
  startsUnderscore p.name = false ∧ p.is_positional = false
    ∧ p.is_keyword_only = false

instance (p : Param) : Decidable (allocatable p) :=
  inferInstanceAs (Decidable (startsUnderscore p.name = false
    ∧ p.is_positional = false ∧ p.is_keyword_only = false))

instance {ε α : Type} [DecidableEq ε] [DecidableEq α] :
    DecidableEq (Except ε α) := fun x y =>
  match x, y with
  | .error a, .error b =>
    if h : a = b then .isTrue (h ▸ rfl)
    else .isFalse fun hh => h (Except.error.inj hh)
  | .ok a, .ok b =>
    if h : a = b then .isTrue (h ▸ rfl)
    else .isFalse fun hh => h (Except.ok.inj hh)
  | .error _, .ok _ => .isFalse fun hh => Except.noConfusion hh
  | .ok _, .error _ => .isFalse fun hh => Except.noConfusion hh

/-- The boolean parameter `foo` of a command `def cmd(config, foo=False,
no_foo=None)`. -/
def fooParam : Param :=
  { name := "foo", real_name := "foo", short_option := Option.none
    is_positional := false, is_keyword_only := false, is_bool := true
    is_bool_or := false, is_help_parameter := false }

/-- The parameter `no_foo` (normalized name `no-foo`) of the same command,
with default `None` (plain string optional). -/
def noFooParam : Param :=
  { name := "no-foo", real_name := "no_foo", short_option := Option.none
    is_positional := false, is_keyword_only := false, is_bool := false
    is_bool_or := false, is_help_parameter := false }

/-- `Command.parameters` for `def cmd(config, foo=False, no_foo=None)`:
the synthetic help parameter followed by the signature's parameters. -/
def noFooCmdParams : List Param := [helpParam, fooParam, noFooParam]

/-- The boolean parameter `echo` of a command `def cmd(config, echo=False)`. -/
def echoParam : Param :=
  { name := "echo", real_name := "echo", short_option := Option.none
    is_positional := false, is_keyword_only := false, is_bool := true
    is_bool_or := false, is_help_parameter := false }

/-- `Command.parameters` for `def cmd(config, echo=False)`. -/
def echoCmdParams : List Param := [helpParam, echoParam]

/-- Parameter `alpha` of a command annotated `arg(short_option='-x')`. -/
def alphaParam : Param :=
  { name := "alpha", real_name := "alpha", short_option := some "-x"
    is_positional := false, is_keyword_only := false, is_bool := false
    is_bool_or := false, is_help_parameter := false }

/-- Parameter `beta` of the same command, also annotated
`arg(short_option='-x')`: a duplicated explicit short option. -/
def betaParam : Param :=
  { name := "beta", real_name := "beta", short_option := some "-x"
    is_positional := false, is_keyword_only := false, is_bool := false
    is_bool_or := false, is_help_parameter := false }

/-- `Command.parameters` for a command whose two parameters both claim the
explicit short option `-x`. -/
def dupShortCmdParams : List Param := [helpParam, alphaParam, betaParam]

/-- An ordinary optional parameter `verbose` with default `None`. -/
def verboseParam : Param :=
  { name := "verbose", real_name := "verbose", short_option := Option.none
    is_positional := false, is_keyword_only := false, is_bool := false
    is_bool_or := false, is_help_parameter := false }


/-- `Command.parameters` for the `run` command (run.py lines 13-28): the
synthetic help parameter followed by the signature's parameters after
`config`, with normalized names.  `echo`, `debug`, `info`,
`list_commands`, `list_envs` default to `False` (booleans); `hide` takes
the special boolean-or-value path of `Parameter.__init__` (command.py
lines 639-646); `options` defaults to `{}` (a dict optional); the rest
default to a string or `None` (plain optionals). -/
def runParams : List Param :=
  [helpParam,
   { name := "module", real_name := "module", short_option := Option.none
     is_positional := false, is_keyword_only := false, is_bool := false
     is_bool_or := false, is_help_parameter := false },
   { name := "config-file", real_name := "config_file"
     short_option := Option.none, is_positional := false
     is_keyword_only := false, is_bool := false, is_bool_or := false
     is_help_parameter := false },
   { name := "env", real_name := "env", short_option := Option.none
     is_positional := false, is_keyword_only := false, is_bool := false
     is_bool_or := false, is_help_parameter := false },
   { name := "options", real_name := "options", short_option := Option.none
     is_positional := false, is_keyword_only := false, is_bool := false
     is_bool_or := false, is_help_parameter := false },
   { name := "version", real_name := "version", short_option := Option.none
     is_positional := false, is_keyword_only := false, is_bool := false
     is_bool_or := false, is_help_parameter := false },
   { name := "echo", real_name := "echo", short_option := Option.none
     is_positional := false, is_keyword_only := false, is_bool := true
     is_bool_or := false, is_help_parameter := false },
   { name := "hide", real_name := "hide", short_option := Option.none
     is_positional := false, is_keyword_only := false, is_bool := false
     is_bool_or := true, is_help_parameter := false },
   { name := "debug", real_name := "debug", short_option := Option.none
     is_positional := false, is_keyword_only := false, is_bool := true
     is_bool_or := false, is_help_parameter := false },
   { name := "info", real_name := "info", short_option := Option.none
     is_positional := false, is_keyword_only := false, is_bool := true
     is_bool_or := false, is_help_parameter := false },
   { name := "list-commands", real_name := "list_commands"
     short_option := Option.none, is_positional := false
     is_keyword_only := false, is_bool := true, is_bool_or := false
     is_help_parameter := false },
   { name := "list-envs", real_name := "list_envs"
     short_option := Option.none, is_positional := false
     is_keyword_only := false, is_bool := true, is_bool_or := false
     is_help_parameter := false }]

/-- `run_command.arg_map` (allocation of the run command's options never
errors, so the error branch is unreachable). -/
def runArgMap : List (String × Param) :=
  match arg_map runParams with
  | .ok m => m
  | .error _ => []

/-- Dict lookup in an arg map (keys are unique: `argMapAssign` overwrites
in place). -/
def argMapLookup : List (String × Param) → String → Option Param
  | [], _ => Option.none
  | e :: rest, s => if e.1 = s then some e.2 else argMapLookup rest s

/-- Result of argparse's `_parse_optional`: whether a registered action
matched (none of the run parser's actions declares `choices`, so the
matched action is summarized by its presence), the option string, and the
inline value. -/
structure OptionData where
  hasAction : Bool
  name : String
  value : Option String
deriving DecidableEq, Repr

/-- argparse's `_negative_number_matcher`, `^-\d+$|^-\d*\.\d+$`. -/
def negNumberMatch (s : String) : Bool :=
  match s.toList with
  | '-' :: rest =>
    (!rest.isEmpty && rest.all Char.isDigit)
      || (match rest.dropWhile Char.isDigit with
          | '.' :: fs => !fs.isEmpty && fs.all Char.isDigit
          | _ => false)
  | _ => false

/-- argparse `ArgumentParser._parse_optional` (CPython ≥ 3.8 semantics —
the comment in `partition_argv` relies on `-nVALUE` being recognized),
specialized to the run parser: prefix character `-`,
`allow_abbrev=False` (no long-option abbreviation), and no registered
option string that looks like a negative number.  Cases in source order:
the empty string, strings not starting with `-`, and the bare `-` are
positionals; an exactly registered string matches its action; an
`=`-split whose prefix is registered matches with the remainder as the
inline value; a single-dash token whose two-character prefix is
registered matches with the rest as the inline value (the only
applicable `_get_option_tuples` case here: registered short options have
two characters and registered long options start with `--`, so no
registered string can start with a longer single-dash token);
negative-number-shaped and space-containing tokens are positionals;
anything else is passed through as an option-shaped token with no
action. -/
def parse_optional (arg : String) : Option OptionData :=
  if arg = "" then Option.none
  else if arg.toList.head? ≠ some '-' then Option.none
  else if (argMapLookup runArgMap arg).isSome then
    some ⟨true, arg, Option.none⟩
  else if arg.toList.length = 1 then Option.none
  else if arg.toList.contains '='
      && (argMapLookup runArgMap
            (String.mk (arg.toList.takeWhile (· ≠ '=')))).isSome then
    some ⟨true, String.mk (arg.toList.takeWhile (· ≠ '=')),
          some (String.mk ((arg.toList.dropWhile (· ≠ '=')).tail))⟩
  else if arg.toList.tail.head? ≠ some '-'
      && (argMapLookup runArgMap (String.mk (arg.toList.take 2))).isSome then
    some ⟨true, String.mk (arg.toList.take 2),
          some (String.mk (arg.toList.drop 2))⟩
  else if negNumberMatch arg then Option.none
  else if arg.toList.contains ' ' then Option.none
  else some ⟨false, arg, Option.none⟩

/-- `hasattr((), name)`: the attribute names of the empty tuple
(CPython 3.8), consulted by the loop's `hasattr(choices, arg)` test —
`choices` is `action.choices or ()`, and no action of the run parser
declares choices, so `choices` is always the empty tuple there. -/
def emptyTupleAttrs : List String :=
  ["count", "index", "__add__", "__class__", "__contains__", "__delattr__",
   "__dir__", "__doc__", "__eq__", "__format__", "__ge__",
   "__getattribute__", "__getitem__", "__getnewargs__", "__gt__",
   "__hash__", "__init__", "__init_subclass__", "__iter__", "__le__",
   "__len__", "__lt__", "__mul__", "__ne__", "__new__", "__reduce__",
   "__reduce_ex__", "__repr__", "__rmul__", "__setattr__", "__sizeof__",
   "__str__", "__subclasshook__"]

def tupleHasAttr (s : String) : Bool := emptyTupleAttrs.contains s

/-- The token-consuming loop of `partition_argv` (run.py lines 215-256),
as a recursion over the remaining tokens carrying the pending option
(`option` in the Python code).  Returns the consumed `run_argv` prefix
and the remaining tokens.  Translation notes:
* when `parse_optional` matches: an unknown name breaks the loop;
  otherwise the token is consumed and, when no inline value was
  supplied, `arg_map[name]` becomes the pending option;
* otherwise, with a pending option: `choices = action.choices or ()` is
  always the empty tuple for this parser, so a value-taking pending
  option consumes the token, and a non-value-taking one consumes it only
  when `hasattr((), arg)` holds — the `arg in choices` test is vacuous;
* otherwise the loop breaks and the remaining tokens start here. -/
def partitionLoop : List String → Option Param → List String × List String
  | [], _ => ([], [])
  | arg :: rest, pending =>
    match parse_optional arg with
    | some od =>
      match argMapLookup runArgMap od.name with
      | Option.none => ([], arg :: rest)
      | some param =>
        let next := partitionLoop rest
          (if od.value = Option.none then some param else Option.none)
        (arg :: next.1, next.2)
    | Option.none =>
      match pending with
      | some option =>
        if option.takes_value then
          let next := partitionLoop rest Option.none
          (arg :: next.1, next.2)
        else if tupleHasAttr arg then
          let next := partitionLoop rest Option.none
          (arg :: next.1, next.2)
        else ([], arg :: rest)
      | Option.none => ([], arg :: rest)

/-- `partition_argv` (run.py lines 204-258) for the run command: returns
`(argv, run_argv, remaining)`.  A literal `--` splits unconditionally at
its first occurrence (`argv.index('--')`). -/
def partition_argv (argv : List String) :
    List String × List String × List String :=
  if argv = [] then (argv, [], [])
  else if argv.contains "--" then
    (argv, argv.takeWhile (· ≠ "--"), (argv.dropWhile (· ≠ "--")).tail)
  else
    let r := partitionLoop argv Option.none
    (argv, r.1, r.2)

/-- Token recognition as the claims word it, derived from
`parse_optional` and the run arg map. -/
inductive Recognized : Type where
  | notOption : Recognized
  | unknownOption : Recognized
  | runnerOption : Param → Option String → Recognized
deriving DecidableEq, Repr

def recognize (arg : String) : Recognized :=
  match parse_optional arg with
  | Option.none => .notOption
  | some od =>
    match argMapLookup runArgMap od.name with
    | Option.none => .unknownOption
    | some p => .runnerOption p od.value

/-- The partition walk as amended claim C1 describes it: consume each
token recognized as a runner option; after a recognized option that
takes a value with none supplied inline, the following token is consumed
as its value only when it is not itself option-shaped — an option-shaped
follower is instead treated as a new option token (consumed when
recognized, otherwise the walk stops at it); after a recognized option
that takes no value, a following non-option-shaped token is consumed
only when it names an attribute of the empty tuple (the `hasattr`
quirk).  The walk stops at the first token consumed by none of these
rules; that token heads the returned remainder. -/
def specWalk : List String → List String × List String
  | [] => ([], [])
  | a :: rest =>
    match recognize a with
    | .notOption => ([], a :: rest)
    | .unknownOption => ([], a :: rest)
    | .runnerOption p inl =>
      if inl.isSome then
        let next := specWalk rest
        (a :: next.1, next.2)
      else
        match rest with
        | [] => ([a], [])
        | b :: rest' =>
          match recognize b with
          | .runnerOption _ _ =>
            let next := specWalk (b :: rest')
            (a :: next.1, next.2)
          | .unknownOption => ([a], b :: rest')
          | .notOption =>
            if p.takes_value || tupleHasAttr b then
              let next := specWalk rest'
              (a :: b :: next.1, next.2)
            else ([a], b :: rest')


/-- The `vars(parsed_args)` mapping: parameter destination → parsed
value. -/
abbrev ParsedArgs := List (String × PyValue)

def lookupPA : ParsedArgs → String → Option PyValue
  | [], _ => Option.none
  | e :: rest, k => if e.1 = k then some e.2 else lookupPA rest k

/-- Python dict assignment `m[k] = v`: overwrite in place, or append. -/
def dictSet : ParsedArgs → String → PyValue → ParsedArgs
  | [], k, v => [(k, v)]
  | e :: rest, k, v =>
    if e.1 = k then (k, v) :: rest else e :: dictSet rest k v

/-- One step of the `parse_args` post-processing loop (command.py lines
289-291): an item whose value equals the empty string is overwritten with
`None`. -/
def postStep (acc : ParsedArgs) (kv : String × PyValue) : ParsedArgs :=
  if kv.2 = PyValue.str "" then dictSet acc kv.1 PyValue.none else acc

/-- The post-processing of `Command.parse_args` (command.py lines
287-292): iterate over the parsed items, replacing every empty-string
value with `None`. -/
def parse_args_post (m : ParsedArgs) : ParsedArgs := m.foldl postStep m

/-- `set_run_default` (command.py lines 250-264): inject the run-level
global for an option when the command defines it, it was not passed, and
the global is set (not `None`). -/
def set_run_default (paramNames : List String)
    (globalDefault : Option PyValue) (option : String)
    (kwargs : ParsedArgs) : ParsedArgs :=
  if option ∈ paramNames ∧ lookupPA kwargs option = Option.none then
    match globalDefault with
    | some g => dictSet kwargs option g
    | Option.none => kwargs
  else kwargs

/-- One step of the configured-defaults injection for positional names
(command.py lines 240-243): `present = name in positionals or name in
kwargs; if not present and name in defaults: kwargs[name] =
defaults[name]`. -/
def injectPositionalDefault (defaults : ParsedArgs)
    (positionalsPassed : List String) (kw : ParsedArgs) (name : String) :
    ParsedArgs :=
  if name ∉ positionalsPassed ∧ lookupPA kw name = Option.none then
    match lookupPA defaults name with
    | some v => dictSet kw name v
    | Option.none => kw
  else kw

/-- One step of the configured-defaults injection for optional names
(command.py lines 245-248): `present = name in kwargs; if not present and
name in defaults: kwargs[name] = defaults[name]`. -/
def injectOptionalDefault (defaults : ParsedArgs) (kw : ParsedArgs)
    (name : String) : ParsedArgs :=
  if lookupPA kw name = Option.none then
    match lookupPA defaults name with
    | some v => dictSet kw name v
    | Option.none => kw
  else kw

/-- The argument-resolution block of `Command.__call__` (command.py lines
225-264) on the non-replaced path: when configured defaults exist,
validate them against the parameter set (`CommandError` on nonexistent
names) and inject them for absent positionals and optionals (skipped
entirely when no defaults are configured, matching `if defaults:`); then
inject the run-level `echo`/`hide` globals.  `positionalsPassed` models
`dict(zip(self.positionals, args))`. -/
def callResolveKwargs (paramNames positionalNames optionalNames : List String)
    (defaults : ParsedArgs) (args : List PyValue) (kwargs : ParsedArgs)
    (runEcho runHide : Option PyValue) : Except String ParsedArgs :=
  if defaults = [] then
    .ok (set_run_default paramNames runHide "hide"
          (set_run_default paramNames runEcho "echo" kwargs))
  else if (defaults.map Prod.fst).any (fun n => !(paramNames.contains n)) then
    .error "CommandError: nonexistent default options"
  else
    let positionalsPassed := (List.zip positionalNames args).map Prod.fst
    let kwargs₁ := positionalNames.foldl
      (injectPositionalDefault defaults positionalsPassed) kwargs
    let kwargs₂ := optionalNames.foldl (injectOptionalDefault defaults) kwargs₁
    .ok (set_run_default paramNames runHide "hide"
          (set_run_default paramNames runEcho "echo" kwargs₂))

/-- The value an optional/keyword parameter receives in the final call
`self.implementation(config, *args, **kwargs)`: the kwargs entry when
present, else the declared default of the Python signature. -/
def finalOptionalValue (kwargs : ParsedArgs) (name : String)
    (declared : PyValue) : PyValue :=
  (lookupPA kwargs name).getD declared

/-! ### Helper lemmas -/


theorem toNat_ofNat_valid (n : Nat) (h : n.isValidChar) :
    (Char.ofNat n).toNat = n := by
  rw [Char.ofNat, dif_pos h]
  rfl

theorem toLower_toNat_of_upper {c : Char} (h : 65 ≤ c.toNat ∧ c.toNat ≤ 90) :
    c.toLower.toNat = c.toNat + 32 := by
  have hv : (c.toNat + 32).isValidChar := Or.inl (by omega)
  simp only [Char.toLower]
  rw [if_pos h]
  exact toNat_ofNat_valid _ hv

theorem toLower_eq_of_not_upper {c : Char}
    (h : ¬(65 ≤ c.toNat ∧ c.toNat ≤ 90)) : c.toLower = c := by
  simp only [Char.toLower]
  rw [if_neg h]

theorem toLower_not_upper (c : Char) :
    ¬(65 ≤ c.toLower.toNat ∧ c.toLower.toNat ≤ 90) := by
  by_cases h : 65 ≤ c.toNat ∧ c.toNat ≤ 90
  · rw [toLower_toNat_of_upper h]
    omega
  · rw [toLower_eq_of_not_upper h]
    exact h

theorem toLower_idem (c : Char) : c.toLower.toLower = c.toLower :=
  toLower_eq_of_not_upper (toLower_not_upper c)

theorem toLower_ne_underscore {c : Char} (h : c ≠ '_') : c.toLower ≠ '_' := by
  by_cases hu : 65 ≤ c.toNat ∧ c.toNat ≤ 90
  · have hn := toLower_toNat_of_upper hu
    intro heq
    rw [heq] at hn
    have h95 : ('_').toNat = 95 := rfl
    omega
  · rw [toLower_eq_of_not_upper hu]
    exact h

theorem normalizeFinish_no_underscore (cs : List Char) :
    '_' ∉ (normalizeFinish cs).toList := by
  intro hmem
  have hmem' : '_' ∈ (cs.map fun ch => if ch = '_' then '-' else ch).map Char.toLower :=
    hmem
  rw [List.mem_map] at hmem'
  obtain ⟨d, hd, heq⟩ := hmem'
  rw [List.mem_map] at hd
  obtain ⟨c, _, rfl⟩ := hd
  by_cases hc : c = '_'
  · rw [hc] at heq
    exact toLower_ne_underscore (by decide) heq
  · rw [if_neg hc] at heq
    exact toLower_ne_underscore hc heq

theorem normalizeFinish_fixed_chars (cs : List Char) :
    normalizeFinish (normalizeFinish cs).toList = normalizeFinish cs := by
  unfold normalizeFinish
  apply congrArg
  have htl : (String.mk ((cs.map fun ch => if ch = '_' then '-' else ch).map
      Char.toLower)).toList
      = (cs.map fun ch => if ch = '_' then '-' else ch).map Char.toLower := rfl
  rw [htl, List.map_map]
  have hcong : ∀ x ∈ (cs.map fun ch => if ch = '_' then '-' else ch).map Char.toLower,
      (Char.toLower ∘ fun ch => if ch = '_' then '-' else ch) x = id x := by
    intro x hx
    rw [List.mem_map] at hx
    obtain ⟨d, hd, rfl⟩ := hx
    have hne : Char.toLower d ≠ '_' := by
      rw [List.mem_map] at hd
      obtain ⟨c, _, rfl⟩ := hd
      by_cases hc : c = '_'
      · rw [hc]
        exact toLower_ne_underscore (by decide)
      · rw [if_neg hc]
        exact toLower_ne_underscore hc
    simp only [Function.comp_apply, if_neg hne, id]
    exact toLower_idem d
  rw [List.map_congr_left hcong, List.map_id]

theorem normalize_name_of_no_underscore {s : String} (h : '_' ∉ s.toList) :
    normalize_name s = some (normalizeFinish s.toList) := by
  unfold normalize_name
  rw [if_neg]
  intro hhead
  apply h
  rw [← List.mem_reverse]
  cases hrev : s.toList.reverse with
  | nil => rw [hrev] at hhead; exact absurd hhead (by decide)
  | cons c tl =>
    rw [hrev] at hhead
    have hc : c = '_' := by simpa using hhead
    rw [hc]
    exact List.mem_cons_self _ _

theorem normalize_name_idem {s r : String}
    (h : normalize_name s = some r) : normalize_name r = some r := by
  have hr : ∃ cs : List Char, r = normalizeFinish cs := by
    unfold normalize_name at h
    split_ifs at h
    all_goals exact ⟨_, (Option.some.inj h).symm⟩
  obtain ⟨cs, rfl⟩ := hr
  rw [normalize_name_of_no_underscore (normalizeFinish_no_underscore cs),
    normalizeFinish_fixed_chars]

theorem codeCandidates_eq_amended (name : String) (paramNames : List String) :
    codeCandidates name paramNames = amendedShortCandidates name paramNames := by
  by_cases hhelp : name = "help"
  · subst hhelp
    rfl
  · by_cases hecho : name = "echo"
    · subst hecho
      rfl
    · by_cases hhide : name = "hide"
      · subst hhide
        rfl
      · simp only [codeCandidates, amendedShortCandidates,
          if_neg hhelp, if_neg hecho, if_neg hhide]
        by_cases he : name.front = 'e'
        · rw [if_pos he, if_pos he]
          by_cases hmem : "echo" ∈ paramNames
          · rw [if_neg (not_not_intro hmem), if_pos hmem]
          · rw [if_pos hmem, if_neg hmem, he]
            decide
        · rw [if_neg he, if_neg he]
          by_cases hh : name.front = 'h'
          · rw [if_pos hh, if_pos hh]
            by_cases hmem : "hide" ∈ paramNames
            · rw [if_neg (not_not_intro hmem), if_pos hmem]
            · rw [if_pos hmem, if_neg hmem, hh]
              decide
          · rw [if_neg hh, if_neg hh]

theorem pickShort_eq_firstFreeShort (name : String) (used : UsedShort) :
    ∀ cands : List Char,
      pickShort name used cands
        = (firstFreeShort name used cands,
           match firstFreeShort name used cands with
           | some s => insertUsed used s name
           | Option.none => used)
  | [] => rfl
  | c :: rest => by
    rcases hl : lookupUsed used (String.mk ['-', c]) with _ | used_for
    · simp [pickShort, firstFreeShort, hl]
    · by_cases hn : used_for = name
      · simp [pickShort, firstFreeShort, hl, hn]
      · simp only [pickShort, firstFreeShort, hl, if_neg hn]
        exact pickShort_eq_firstFreeShort name used rest

theorem isShortOpt_false_of_dashdash {s : String}
    (h : ∃ rest, s.toList = '-' :: '-' :: rest) : isShortOpt s = false := by
  obtain ⟨rest, hrest⟩ := h
  unfold isShortOpt
  rw [hrest]
  cases rest with
  | nil => rfl
  | cons c tl => rfl

theorem isShortOpt_dashdash (x : String) : isShortOpt ("--" ++ x) = false :=
  isShortOpt_false_of_dashdash ⟨x.toList, by
    show ("--" ++ x).data = _
    rw [String.data_append]
    rfl⟩

theorem isShortOpt_noInverse (p : Param) :
    isShortOpt (if p.name = "yes" then "--no"
      else if p.name = "no" then "--yes" else "--no-" ++ p.name) = false := by
  split_ifs
  · decide
  · decide
  · exact isShortOpt_false_of_dashdash ⟨'n' :: 'o' :: '-' :: p.name.toList, by
      show ("--no-" ++ p.name).data = _
      rw [String.data_append]
      rfl⟩

theorem appendLongNames_mem {p : Param} {shorts : List String} {s : String}
    (h : s ∈ appendLongNames p shorts) : s ∈ shorts ∨ isShortOpt s = false := by
  unfold appendLongNames at h
  split_ifs at h
  · simp only [List.mem_append, List.mem_singleton] at h
    rcases h with (h | h) | h
    · exact Or.inl h
    · exact Or.inr (h ▸ isShortOpt_dashdash _)
    · exact Or.inr (h ▸ isShortOpt_dashdash _)
  · simp only [List.mem_append, List.mem_singleton] at h
    rcases h with (h | h) | h
    · exact Or.inl h
    · exact Or.inr (h ▸ isShortOpt_dashdash _)
    · exact Or.inr (h ▸ isShortOpt_noInverse p)
  · simp only [List.mem_append, List.mem_singleton] at h
    rcases h with h | h
    · exact Or.inl h
    · exact Or.inr (h ▸ isShortOpt_dashdash _)
  · simp only [List.mem_append, List.mem_singleton] at h
    rcases h with h | h
    · exact Or.inl h
    · exact Or.inr (h ▸ isShortOpt_dashdash _)

theorem lookup_insertUsed_self (used : UsedShort) (s n : String) :
    lookupUsed (insertUsed used s n) s = some n := by
  induction used with
  | nil => simp [insertUsed, lookupUsed]
  | cons e rest ih =>
    by_cases he : e.1 = s
    · simp [insertUsed, he, lookupUsed]
    · simp [insertUsed, he, lookupUsed, ih]

theorem lookup_insertUsed_ne (used : UsedShort) {s t : String} (n : String)
    (h : ¬t = s) : lookupUsed (insertUsed used s n) t = lookupUsed used t := by
  have h' : ¬s = t := fun hh => h hh.symm
  induction used with
  | nil => simp [insertUsed, lookupUsed, h']
  | cons e rest ih =>
    by_cases he : e.1 = s
    · have het : ¬e.1 = t := by rw [he]; exact h'
      simp only [insertUsed, if_pos he, lookupUsed, if_neg h', if_neg het]
    · by_cases het : e.1 = t
      · simp only [insertUsed, if_neg he, lookupUsed, if_pos het]
      · simp only [insertUsed, if_neg he, lookupUsed, if_neg het]
        exact ih

theorem ok_pair_eq {α β : Type} {x a : α} {y b : β}
    (h : (Except.ok (x, y) : Except String (α × β)) = .ok (a, b)) :
    x = a ∧ y = b := by
  injection h with h'
  exact ⟨congrArg Prod.fst h', congrArg Prod.snd h'⟩

/-- `pickShort` only ever inserts the allocation it returns. -/
theorem pickShort_used_eq (name : String) (used : UsedShort)
    (cands : List Char) :
    (pickShort name used cands).2
      = (match (pickShort name used cands).1 with
         | some s => insertUsed used s name
         | Option.none => used) := by
  rw [pickShort_eq_firstFreeShort]

/-- A `pickShort` allocation is only made when the short is unused or
already recorded for this very name. -/
theorem pickShort_free (name : String) (used : UsedShort) :
    ∀ (cands : List Char) (s : String),
      (pickShort name used cands).1 = some s →
      lookupUsed used s = Option.none ∨ lookupUsed used s = some name
  | [], s => by simp [pickShort]
  | c :: rest, s => by
    rcases hl : lookupUsed used (String.mk ['-', c]) with _ | used_for
    · intro h
      simp only [pickShort, hl] at h
      exact Or.inl ((Option.some.inj h) ▸ hl)
    · by_cases hn : used_for = name
      · intro h
        simp only [pickShort, hl, if_pos hn] at h
        exact Or.inr ((Option.some.inj h) ▸ (hn ▸ hl))
      · intro h
        simp only [pickShort, hl, if_neg hn] at h
        exact pickShort_free name used rest s h

/-- Characterization of the `used_short_options` table after one
allocation step: it is unchanged, or extended at a key that was free or
already recorded for this very parameter's name. -/
theorem step_used {pn : List String} {used : UsedShort} {p : Param}
    {ns : List String} {used' : UsedShort}
    (hok : arg_names_for_param pn used p = .ok (ns, used')) :
    used' = used
      ∨ ∃ t, (lookupUsed used t = Option.none ∨ lookupUsed used t = some p.name)
          ∧ used' = insertUsed used t p.name := by
  simp only [arg_names_for_param] at hok
  split_ifs at hok
  · exact Or.inl (ok_pair_eq hok).2.symm
  · exact Or.inl (ok_pair_eq hok).2.symm
  · exact Or.inl (ok_pair_eq hok).2.symm
  · rcases hso : p.short_option with _ | t
    · rw [hso] at hok
      dsimp only at hok
      obtain ⟨_, hused⟩ := ok_pair_eq hok
      rcases hpick : (pickShort p.name used (codeCandidates p.name pn)).1
        with _ | s₀
      · rw [pickShort_used_eq, hpick] at hused
        exact Or.inl hused.symm
      · rw [pickShort_used_eq, hpick] at hused
        exact Or.inr ⟨s₀, pickShort_free _ _ _ _ hpick, hused.symm⟩
    · rw [hso] at hok
      dsimp only at hok
      rcases hlt : lookupUsed used t with _ | uf
      · rw [hlt] at hok
        dsimp only at hok
        obtain ⟨_, hused⟩ := ok_pair_eq hok
        exact Or.inr ⟨t, Or.inl hlt, hused.symm⟩
      · rw [hlt] at hok
        dsimp only at hok
        by_cases hu : uf ≠ p.name
        · rw [if_pos hu] at hok
          exact absurd hok (by simp)
        · rw [if_neg hu] at hok
          obtain ⟨_, hused⟩ := ok_pair_eq hok
          push_neg at hu
          exact Or.inr ⟨t, Or.inr (hu ▸ hlt), hused.symm⟩

/-- Allocation steps never change an existing entry of
`used_short_options`: once a short is recorded for a name, it stays
recorded for that name (or allocation fails). -/
theorem step_preserves {pn : List String} {used : UsedShort} {p : Param}
    {ns : List String} {used' : UsedShort}
    (hok : arg_names_for_param pn used p = .ok (ns, used'))
    {s n : String} (hl : lookupUsed used s = some n) :
    lookupUsed used' s = some n := by
  rcases step_used hok with rfl | ⟨t, hfree, rfl⟩
  · exact hl
  · by_cases hs : s = t
    · subst hs
      rcases hfree with hnone | hsame
      · rw [hnone] at hl
        exact absurd hl (by simp)
      · rw [lookup_insertUsed_self]
        rw [hsame] at hl
        exact hl.symm ▸ rfl
    · rw [lookup_insertUsed_ne _ _ hs]
      exact hl

/-- Every short-shaped name in the result of one allocation step has been
recorded in `used_short_options` for this parameter's name. -/
theorem step_registers {pn : List String} {used : UsedShort} {p : Param}
    {ns : List String} {used' : UsedShort}
    (hok : arg_names_for_param pn used p = .ok (ns, used'))
    (hreal : isShortOpt p.real_name = false) :
    ∀ s, isShortOpt s = true → s ∈ ns → lookupUsed used' s = some p.name := by
  intro s hshort hmem
  simp only [arg_names_for_param] at hok
  split_ifs at hok
  · rw [← (ok_pair_eq hok).1] at hmem
    exact absurd hmem (by simp)
  · rw [← (ok_pair_eq hok).1] at hmem
    have hs : s = p.real_name := by simpa using hmem
    rw [hs, hreal] at hshort
    exact absurd hshort (by simp)
  · rw [← (ok_pair_eq hok).1] at hmem
    exact absurd hmem (by simp)
  · rcases hso : p.short_option with _ | t
    · rw [hso] at hok
      dsimp only at hok
      obtain ⟨hns, hused⟩ := ok_pair_eq hok
      rw [← hns] at hmem
      rcases appendLongNames_mem hmem with hin | hfalse
      · rcases hpick : (pickShort p.name used (codeCandidates p.name pn)).1
          with _ | s₀
        · rw [hpick] at hin
          exact absurd hin (by simp)
        · rw [hpick] at hin
          have hs : s = s₀ := by simpa using hin
          subst hs
          rw [← hused, pickShort_used_eq, hpick, lookup_insertUsed_self]
      · rw [hshort] at hfalse
        exact absurd hfalse (by simp)
    · rw [hso] at hok
      dsimp only at hok
      rcases hlt : lookupUsed used t with _ | uf
      · rw [hlt] at hok
        dsimp only at hok
        obtain ⟨hns, hused⟩ := ok_pair_eq hok
        rw [← hns] at hmem
        rcases appendLongNames_mem hmem with hin | hfalse
        · have hs : s = t := by simpa using hin
          subst hs
          rw [← hused, lookup_insertUsed_self]
        · rw [hshort] at hfalse
          exact absurd hfalse (by simp)
      · rw [hlt] at hok
        dsimp only at hok
        by_cases hu : uf ≠ p.name
        · rw [if_pos hu] at hok
          exact absurd hok (by simp)
        · rw [if_neg hu] at hok
          obtain ⟨hns, hused⟩ := ok_pair_eq hok
          rw [← hns] at hmem
          rcases appendLongNames_mem hmem with hin | hfalse
          · have hs : s = t := by simpa using hin
            subst hs
            rw [← hused, lookup_insertUsed_self]
          · rw [hshort] at hfalse
            exact absurd hfalse (by simp)

/-- A manually specified short option of an allocatable parameter is
recorded for that parameter's name by its allocation step. -/
theorem step_manual {pn : List String} {used : UsedShort} {p : Param}
    {ns : List String} {used' : UsedShort}
    (hok : arg_names_for_param pn used p = .ok (ns, used'))
    (halloc : allocatable p) {t : String} (hso : p.short_option = some t) :
    lookupUsed used' t = some p.name ∧ t ∈ ns := by
  obtain ⟨h1, h2, h3⟩ := halloc
  simp only [arg_names_for_param, h1, h2, h3, Bool.false_eq_true, if_false] at hok
  rw [hso] at hok
  dsimp only at hok
  rcases hlt : lookupUsed used t with _ | uf
  · rw [hlt] at hok
    dsimp only at hok
    obtain ⟨hns, hused⟩ := ok_pair_eq hok
    refine ⟨?_, ?_⟩
    · rw [← hused, lookup_insertUsed_self]
    · rw [← hns]
      unfold appendLongNames
      split_ifs <;> simp
  · rw [hlt] at hok
    dsimp only at hok
    by_cases hu : uf ≠ p.name
    · rw [if_pos hu] at hok
      exact absurd hok (by simp)
    · rw [if_neg hu] at hok
      obtain ⟨hns, hused⟩ := ok_pair_eq hok
      refine ⟨?_, ?_⟩
      · rw [← hused, lookup_insertUsed_self]
      · rw [← hns]
        unfold appendLongNames
        split_ifs <;> simp

/-- `allocAll` preserves every existing `used_short_options` entry. -/
theorem allocAll_preserves {pn : List String} :
    ∀ {ps : List Param} {used : UsedShort}
      {alloc : List (Param × List String)} {usedF : UsedShort},
      allocAll pn ps used = .ok (alloc, usedF) →
      ∀ {s n : String}, lookupUsed used s = some n →
        lookupUsed usedF s = some n := by
  intro ps
  induction ps with
  | nil =>
    intro used alloc usedF hok s n hl
    simp only [allocAll] at hok
    exact (ok_pair_eq hok).2 ▸ hl
  | cons p rest ih =>
    intro used alloc usedF hok s n hl
    simp only [allocAll] at hok
    rcases hstep : arg_names_for_param pn used p with e | ⟨names, used₁⟩
    · rw [hstep] at hok
      exact absurd hok (by simp)
    · rw [hstep] at hok
      dsimp only at hok
      rcases hrest : allocAll pn rest used₁ with e | ⟨tail, usedF'⟩
      · rw [hrest] at hok
        exact absurd hok (by simp)
      · rw [hrest] at hok
        dsimp only at hok
        exact (ok_pair_eq hok).2 ▸ ih hrest (step_preserves hstep hl)

/-- Every short-shaped option string allocated by `allocAll` is recorded,
in the final `used_short_options` table, for the parameter that received
it. -/
theorem allocAll_registered {pn : List String} :
    ∀ {ps : List Param} {used : UsedShort}
      {alloc : List (Param × List String)} {usedF : UsedShort},
      allocAll pn ps used = .ok (alloc, usedF) →
      (∀ p ∈ ps, isShortOpt p.real_name = false) →
      ∀ {q : Param} {ns : List String}, (q, ns) ∈ alloc →
        ∀ {s : String}, isShortOpt s = true → s ∈ ns →
          lookupUsed usedF s = some q.name := by
  intro ps
  induction ps with
  | nil =>
    intro used alloc usedF hok _ q ns hmem s hshort hsmem
    simp only [allocAll] at hok
    rw [← (ok_pair_eq hok).1] at hmem
    exact absurd hmem (by simp)
  | cons p rest ih =>
    intro used alloc usedF hok hreal q ns hmem s hshort hsmem
    simp only [allocAll] at hok
    rcases hstep : arg_names_for_param pn used p with e | ⟨names, used₁⟩
    · rw [hstep] at hok
      exact absurd hok (by simp)
    · rw [hstep] at hok
      dsimp only at hok
      rcases hrest : allocAll pn rest used₁ with e | ⟨tail, usedF'⟩
      · rw [hrest] at hok
        exact absurd hok (by simp)
      · rw [hrest] at hok
        dsimp only at hok
        obtain ⟨halloc, husedF⟩ := ok_pair_eq hok
        rw [← halloc] at hmem
        rcases List.mem_cons.mp hmem with hhead | htail
        · have hq : q = p := congrArg Prod.fst hhead
          have hns : ns = names := congrArg Prod.snd hhead
          rw [hq]
          rw [hns] at hsmem
          exact husedF ▸ allocAll_preserves hrest
            (step_registers hstep (hreal p (List.mem_cons_self _ _)) s hshort hsmem)
        · exact husedF ▸
            ih hrest (fun r hr => hreal r (List.mem_cons_of_mem _ hr))
              htail hshort hsmem

/-- The manual short option of every allocatable parameter processed by a
successful `allocAll` run is recorded for that parameter's name in the
final table. -/
theorem allocAll_manual {pn : List String} :
    ∀ {ps : List Param} {used : UsedShort}
      {alloc : List (Param × List String)} {usedF : UsedShort},
      allocAll pn ps used = .ok (alloc, usedF) →
      ∀ {pr : Param}, pr ∈ ps → allocatable pr →
        ∀ {t : String}, pr.short_option = some t →
          lookupUsed usedF t = some pr.name := by
  intro ps
  induction ps with
  | nil =>
    intro used alloc usedF _ pr hmem
    exact absurd hmem (by simp)
  | cons p rest ih =>
    intro used alloc usedF hok pr hmem halloc t hso
    simp only [allocAll] at hok
    rcases hstep : arg_names_for_param pn used p with e | ⟨names, used₁⟩
    · rw [hstep] at hok
      exact absurd hok (by simp)
    · rw [hstep] at hok
      dsimp only at hok
      rcases hrest : allocAll pn rest used₁ with e | ⟨tail, usedF'⟩
      · rw [hrest] at hok
        exact absurd hok (by simp)
      · rw [hrest] at hok
        dsimp only at hok
        obtain ⟨_, husedF⟩ := ok_pair_eq hok
        rcases List.mem_cons.mp hmem with rfl | htail
        · exact husedF ▸
            allocAll_preserves hrest (step_manual hstep halloc hso).1
        · exact husedF ▸ ih hrest htail halloc hso

theorem mem_allocOrder_of_mem {params : List Param} {p : Param}
    (hp : p ∈ params) (hs : p.short_option.isSome) : p ∈ allocOrder params :=
  List.mem_append_left _ (List.mem_filter.mpr ⟨hp, hs⟩)

theorem mem_of_mem_allocOrder {params : List Param} {p : Param}
    (hp : p ∈ allocOrder params) : p ∈ params := by
  rcases List.mem_append.mp hp with h | h
  · exact (List.mem_filter.mp h).1
  · exact (List.mem_filter.mp h).1


theorem partitionLoop_cons_pending (p : Param) (b : String)
    (rest' : List String) :
    partitionLoop (b :: rest') (some p)
      = if (parse_optional b).isSome then partitionLoop (b :: rest') Option.none
        else if p.takes_value || tupleHasAttr b then
          ((b :: (partitionLoop rest' Option.none).1),
            (partitionLoop rest' Option.none).2)
        else ([], b :: rest') := by
  rcases hpo : parse_optional b with _ | od
  · simp only [partitionLoop, hpo, Option.isSome, if_false]
    by_cases ht : p.takes_value
    · simp [ht]
    · by_cases ha : tupleHasAttr b
      · simp [ht, ha]
      · simp [ht, ha]
  · simp only [partitionLoop, hpo, Option.isSome, if_true]

theorem partitionLoop_append :
    ∀ (l : List String) (pending : Option Param),
      (partitionLoop l pending).1 ++ (partitionLoop l pending).2 = l
  | [], _ => rfl
  | arg :: rest, pending => by
    rcases hpo : parse_optional arg with _ | od
    · rcases pending with _ | option
      · simp only [partitionLoop, hpo]
        rfl
      · simp only [partitionLoop, hpo]
        by_cases ht : option.takes_value
        · simp only [if_pos ht, List.cons_append, List.cons.injEq, true_and]
          exact partitionLoop_append rest Option.none
        · by_cases ha : tupleHasAttr arg
          · simp only [if_neg ht, if_pos ha, List.cons_append,
              List.cons.injEq, true_and]
            exact partitionLoop_append rest Option.none
          · simp only [if_neg ht, if_neg ha]
            rfl
    · simp only [partitionLoop, hpo]
      rcases hl : argMapLookup runArgMap od.name with _ | param
      · rfl
      · simp only [List.cons_append, List.cons.injEq, true_and]
        exact partitionLoop_append rest _

theorem recognize_notOption {a : String} (h : recognize a = .notOption) :
    parse_optional a = Option.none := by
  unfold recognize at h
  rcases hpo : parse_optional a with _ | od
  · rfl
  · rw [hpo] at h
    dsimp only at h
    rcases hl : argMapLookup runArgMap od.name with _ | p
    · rw [hl] at h
      exact absurd h (by simp)
    · rw [hl] at h
      exact absurd h (by simp)

theorem recognize_unknownOption {a : String}
    (h : recognize a = .unknownOption) :
    ∃ od, parse_optional a = some od
      ∧ argMapLookup runArgMap od.name = Option.none := by
  unfold recognize at h
  rcases hpo : parse_optional a with _ | od
  · rw [hpo] at h
    exact absurd h (by simp)
  · rw [hpo] at h
    dsimp only at h
    rcases hl : argMapLookup runArgMap od.name with _ | p
    · exact ⟨od, rfl, hl⟩
    · rw [hl] at h
      exact absurd h (by simp)

theorem recognize_runnerOption {a : String} {p : Param} {inl : Option String}
    (h : recognize a = .runnerOption p inl) :
    ∃ od, parse_optional a = some od
      ∧ argMapLookup runArgMap od.name = some p ∧ od.value = inl := by
  unfold recognize at h
  rcases hpo : parse_optional a with _ | od
  · rw [hpo] at h
    exact absurd h (by simp)
  · rw [hpo] at h
    dsimp only at h
    rcases hl : argMapLookup runArgMap od.name with _ | q
    · rw [hl] at h
      exact absurd h (by simp)
    · rw [hl] at h
      injection h with h1 h2
      exact ⟨od, rfl, by rw [hl, h1], h2⟩

theorem partitionLoop_cons_stop {a : String} (rest : List String)
    (h : recognize a = .notOption ∨ recognize a = .unknownOption) :
    partitionLoop (a :: rest) Option.none = ([], a :: rest) := by
  rcases h with h | h
  · simp [partitionLoop, recognize_notOption h]
  · obtain ⟨od, hpo, hl⟩ := recognize_unknownOption h
    simp [partitionLoop, hpo, hl]

theorem partitionLoop_cons_runner {a : String} {p : Param}
    {inl : Option String} (rest : List String)
    (h : recognize a = .runnerOption p inl) :
    partitionLoop (a :: rest) Option.none
      = (a :: (partitionLoop rest
            (if inl = Option.none then some p else Option.none)).1,
         (partitionLoop rest
            (if inl = Option.none then some p else Option.none)).2) := by
  obtain ⟨od, hpo, hl, hv⟩ := recognize_runnerOption h
  simp [partitionLoop, hpo, hl, hv]

theorem specWalk_cons_stop {a : String} (rest : List String)
    (h : recognize a = .notOption ∨ recognize a = .unknownOption) :
    specWalk (a :: rest) = ([], a :: rest) := by
  rcases h with h | h <;> simp [specWalk, h]

theorem specWalk_cons_inline {a : String} {p : Param} {v : String}
    (rest : List String) (h : recognize a = .runnerOption p (some v)) :
    specWalk (a :: rest) = (a :: (specWalk rest).1, (specWalk rest).2) := by
  simp [specWalk, h]

theorem partitionLoop_eq_specWalk_fuel :
    ∀ (n : Nat) (argv : List String), argv.length ≤ n →
      partitionLoop argv Option.none = specWalk argv := by
  intro n
  induction n with
  | zero =>
    intro argv h
    have hnil : argv = [] := List.eq_nil_of_length_eq_zero (Nat.le_zero.mp h)
    rw [hnil]
    rfl
  | succ n ih =>
    intro argv h
    match argv with
    | [] => rfl
    | a :: rest =>
      have hlen : rest.length ≤ n := Nat.le_of_succ_le_succ h
      rcases hrec : recognize a with _ | _ | ⟨p, inl⟩
      · rw [partitionLoop_cons_stop rest (Or.inl hrec),
          specWalk_cons_stop rest (Or.inl hrec)]
      · rw [partitionLoop_cons_stop rest (Or.inr hrec),
          specWalk_cons_stop rest (Or.inr hrec)]
      · rcases hinl : inl with _ | v
        · -- no inline value: the matched option becomes pending
          rw [hinl] at hrec
          rw [partitionLoop_cons_runner rest hrec]
          have hpend : (if (Option.none : Option String) = Option.none
              then some p else Option.none) = some p := rfl
          rw [hpend]
          match rest with
          | [] =>
            simp [partitionLoop, specWalk, hrec]
          | b :: rest' =>
            have hlen' : rest'.length ≤ n := Nat.le_of_succ_le hlen
            rw [partitionLoop_cons_pending]
            rcases hrecb : recognize b with _ | _ | ⟨q, inl'⟩
            · have hpob := recognize_notOption hrecb
              rw [hpob]
              simp only [Option.isSome_none, Bool.false_eq_true, if_false]
              by_cases hq : (p.takes_value || tupleHasAttr b) = true
              · rw [if_pos hq, ih rest' hlen']
                have hspec : specWalk (a :: b :: rest')
                    = (a :: b :: (specWalk rest').1, (specWalk rest').2) := by
                  simp [specWalk, hrec, hrecb, hq]
                rw [hspec]
              · rw [if_neg hq]
                have hspec : specWalk (a :: b :: rest') = ([a], b :: rest') := by
                  simp [specWalk, hrec, hrecb, hq]
                rw [hspec]
            · obtain ⟨odb, hpob, hlb⟩ := recognize_unknownOption hrecb
              rw [hpob]
              simp only [Option.isSome_some, if_true]
              rw [partitionLoop_cons_stop rest' (Or.inr hrecb)]
              have hspec : specWalk (a :: b :: rest') = ([a], b :: rest') := by
                simp [specWalk, hrec, hrecb]
              rw [hspec]
            · obtain ⟨odb, hpob, hlb, hvb⟩ := recognize_runnerOption hrecb
              rw [hpob]
              simp only [Option.isSome_some, if_true]
              rw [ih (b :: rest') hlen]
              have hspec : specWalk (a :: b :: rest')
                  = (a :: (specWalk (b :: rest')).1,
                     (specWalk (b :: rest')).2) := by
                conv_lhs => rw [specWalk]
                simp [hrec, hrecb]
              rw [hspec]
        · rw [hinl] at hrec
          rw [partitionLoop_cons_runner rest hrec]
          have hpend : (if some v = (Option.none : Option String)
              then some p else Option.none) = Option.none := rfl
          rw [hpend, ih rest hlen, specWalk_cons_inline rest hrec]

theorem partitionLoop_eq_specWalk (argv : List String) :
    partitionLoop argv Option.none = specWalk argv :=
  partitionLoop_eq_specWalk_fuel argv.length argv (Nat.le_refl _)

theorem takeWhile_dropWhile_split :
    ∀ (argv : List String), "--" ∈ argv →
      argv = argv.takeWhile (· ≠ "--")
          ++ "--" :: (argv.dropWhile (· ≠ "--")).tail
        ∧ "--" ∉ argv.takeWhile (· ≠ "--") := by
  intro argv
  induction argv with
  | nil => intro h; exact absurd h (by simp)
  | cons a tl ih =>
    intro h
    by_cases ha : a = "--"
    · subst ha
      refine ⟨?_, ?_⟩
      · simp [List.takeWhile, List.dropWhile]
      · simp [List.takeWhile]
    · have htl : "--" ∈ tl := by
        rcases List.mem_cons.mp h with h1 | h1
        · exact absurd h1.symm ha
        · exact h1
      obtain ⟨heq, hnot⟩ := ih htl
      have hpa : (fun x : String => decide (x ≠ "--")) a = true := by
        simp [ha]
      refine ⟨?_, ?_⟩
      · simp only [List.takeWhile, List.dropWhile, hpa]
        exact congrArg (a :: ·) heq
      · simp only [List.takeWhile, hpa]
        intro hmem
        rcases List.mem_cons.mp hmem with h1 | h1
        · exact ha h1.symm
        · exact hnot h1


theorem lookupPA_dictSet_self (m : ParsedArgs) (k : String) (v : PyValue) :
    lookupPA (dictSet m k v) k = some v := by
  induction m with
  | nil => simp [dictSet, lookupPA]
  | cons e rest ih =>
    by_cases he : e.1 = k
    · simp [dictSet, he, lookupPA]
    · simp only [dictSet, if_neg he, lookupPA, if_neg he]
      exact ih

theorem lookupPA_dictSet_ne (m : ParsedArgs) {k t : String} (v : PyValue)
    (h : ¬t = k) : lookupPA (dictSet m k v) t = lookupPA m t := by
  have h' : ¬k = t := fun hh => h hh.symm
  induction m with
  | nil => simp [dictSet, lookupPA, h']
  | cons e rest ih =>
    by_cases he : e.1 = k
    · have het : ¬e.1 = t := by rw [he]; exact h'
      simp only [dictSet, if_pos he, lookupPA, if_neg h', if_neg het]
    · by_cases het : e.1 = t
      · simp only [dictSet, if_neg he, lookupPA, if_pos het]
      · simp only [dictSet, if_neg he, lookupPA, if_neg het]
        exact ih

theorem lookupPA_mem {m : ParsedArgs} {k : String} {v : PyValue}
    (h : lookupPA m k = some v) : (k, v) ∈ m := by
  induction m with
  | nil => exact absurd h (by simp [lookupPA])
  | cons e rest ih =>
    by_cases he : e.1 = k
    · rw [lookupPA, if_pos he] at h
      have : e = (k, v) := by
        rcases e with ⟨e1, e2⟩
        simp only at he
        simp only [Option.some.injEq] at h
        rw [he, h]
      rw [← this]
      exact List.mem_cons_self _ _
    · rw [lookupPA, if_neg he] at h
      exact List.mem_cons_of_mem _ (ih h)

theorem lookupPA_of_mem_nodup {m : ParsedArgs} {k : String} {v : PyValue}
    (hnd : (m.map Prod.fst).Nodup) (h : (k, v) ∈ m) :
    lookupPA m k = some v := by
  induction m with
  | nil => exact absurd h (by simp)
  | cons e rest ih =>
    rcases List.mem_cons.mp h with rfl | hmem
    · simp [lookupPA]
    · have hk : k ∈ rest.map Prod.fst :=
        List.mem_map.mpr ⟨(k, v), hmem, rfl⟩
      have he : ¬e.1 = k := by
        intro heq
        exact (List.nodup_cons.mp hnd).1 (heq ▸ hk)
      rw [lookupPA, if_neg he]
      exact ih (List.nodup_cons.mp hnd).2 hmem

/-- Keys of `dictSet` when the key is already present. -/
theorem dictSet_keys {m : ParsedArgs} {k : String} (v : PyValue)
    (h : k ∈ m.map Prod.fst) :
    (dictSet m k v).map Prod.fst = m.map Prod.fst := by
  induction m with
  | nil => exact absurd h (by simp)
  | cons e rest ih =>
    by_cases he : e.1 = k
    · simp [dictSet, he]
    · have hk : k ∈ rest.map Prod.fst := by
        rw [List.map_cons] at h
        rcases List.mem_cons.mp h with h1 | h1
        · exact absurd h1.symm he
        · exact h1
      simp only [dictSet, if_neg he, List.map_cons]
      rw [ih hk]

/-- Entries of `dictSet` under unique keys: the new entry, or an old entry
at a different key. -/
theorem dictSet_mem {m : ParsedArgs} {k : String} {v : PyValue}
    {kv : String × PyValue} (hnd : (m.map Prod.fst).Nodup)
    (h : kv ∈ dictSet m k v) :
    kv = (k, v) ∨ (kv ∈ m ∧ ¬kv.1 = k) := by
  induction m with
  | nil =>
    simp only [dictSet, List.mem_singleton] at h
    exact Or.inl h
  | cons e rest ih =>
    by_cases he : e.1 = k
    · rw [dictSet, if_pos he] at h
      rcases List.mem_cons.mp h with rfl | hmem
      · exact Or.inl rfl
      · refine Or.inr ⟨List.mem_cons_of_mem _ hmem, ?_⟩
        intro hk
        have : kv.1 ∈ rest.map Prod.fst := List.mem_map.mpr ⟨kv, hmem, rfl⟩
        exact (List.nodup_cons.mp hnd).1 (he ▸ hk ▸ this)
    · rw [dictSet, if_neg he] at h
      rcases List.mem_cons.mp h with rfl | hmem
      · exact Or.inr ⟨List.mem_cons_self _ _, fun hk => he hk⟩
      · rcases ih (List.nodup_cons.mp hnd).2 hmem with h1 | ⟨h1, h2⟩
        · exact Or.inl h1
        · exact Or.inr ⟨List.mem_cons_of_mem _ h1, h2⟩

/-- The post-processing fold leaves a key alone when none of the iterated
items carries that key with an empty-string value. -/
theorem postFold_untouched :
    ∀ (l : List (String × PyValue)) (acc : ParsedArgs) (t : String),
      (∀ v, (t, v) ∈ l → ¬v = PyValue.str "") →
      lookupPA (l.foldl postStep acc) t = lookupPA acc t
  | [], _, _, _ => rfl
  | kv :: l', acc, t, h => by
    rw [List.foldl_cons]
    have hstep : lookupPA (postStep acc kv) t = lookupPA acc t := by
      unfold postStep
      by_cases hv : kv.2 = PyValue.str ""
      · rw [if_pos hv]
        have hkt : ¬t = kv.1 := by
          intro heq
          exact h kv.2 (by rw [heq]; exact List.mem_cons_self _ _) hv
        exact lookupPA_dictSet_ne acc _ hkt
      · rw [if_neg hv]
    rw [← hstep]
    exact postFold_untouched l' (postStep acc kv) t
      (fun v hv => h v (List.mem_cons_of_mem _ hv))

/-- The post-processing fold replaces the value of a key that appears in
the iterated items with an empty-string value (keys unique). -/
theorem postFold_replaces :
    ∀ (l : List (String × PyValue)) (acc : ParsedArgs) (t : String)
      (w : PyValue),
      (t, PyValue.str "") ∈ l → (l.map Prod.fst).Nodup →
      lookupPA acc t = some w →
      lookupPA (l.foldl postStep acc) t = some PyValue.none
  | [], _, _, _, hmem, _, _ => absurd hmem (by simp)
  | kv :: l', acc, t, w, hmem, hnd, hacc => by
    rw [List.foldl_cons]
    rcases List.mem_cons.mp hmem with heq | hmem'
    · have hkv1 : kv.1 = t := by rw [← heq]
      have hkv2 : kv.2 = PyValue.str "" := by rw [← heq]
      have hstep : lookupPA (postStep acc kv) t = some PyValue.none := by
        unfold postStep
        rw [if_pos hkv2, hkv1]
        exact lookupPA_dictSet_self acc t PyValue.none
      have hnotl' : ∀ v, (t, v) ∈ l' → ¬v = PyValue.str "" := by
        intro v hv _
        have : t ∈ l'.map Prod.fst := List.mem_map.mpr ⟨(t, v), hv, rfl⟩
        exact (List.nodup_cons.mp hnd).1 (hkv1 ▸ this)
      rw [postFold_untouched l' (postStep acc kv) t hnotl', hstep]
    · have hkt : ¬kv.1 = t := by
        intro heq
        have : t ∈ l'.map Prod.fst :=
          List.mem_map.mpr ⟨(t, PyValue.str ""), hmem', rfl⟩
        exact (List.nodup_cons.mp hnd).1 (heq ▸ this)
      have hstep : lookupPA (postStep acc kv) t = some w := by
        unfold postStep
        by_cases hv : kv.2 = PyValue.str ""
        · rw [if_pos hv, lookupPA_dictSet_ne acc _ (fun hh => hkt hh.symm)]
          exact hacc
        · rw [if_neg hv]
          exact hacc
      exact postFold_replaces l' (postStep acc kv) t w hmem'
        (List.nodup_cons.mp hnd).2 hstep

/-- After the post-processing fold, no entry carries an empty-string
value (given the invariant that every empty-string entry of the
accumulator still has its key pending in the iterated items). -/
theorem postFold_entries :
    ∀ (l : List (String × PyValue)) (acc : ParsedArgs),
      (acc.map Prod.fst).Nodup →
      (∀ kv₀ ∈ l, kv₀.1 ∈ acc.map Prod.fst) →
      (∀ kv ∈ acc, ¬kv.2 = PyValue.str "" ∨ (kv.1, PyValue.str "") ∈ l) →
      ∀ kv ∈ l.foldl postStep acc, ¬kv.2 = PyValue.str ""
  | [], acc, _, _, hinv, kv, hmem => by
    rcases hinv kv hmem with h | h
    · exact h
    · exact absurd h (by simp)
  | kv₀ :: l', acc, hnd, hkeys, hinv, kv, hmem => by
    rw [List.foldl_cons] at hmem
    by_cases hv : kv₀.2 = PyValue.str ""
    · have hstepdef : postStep acc kv₀ = dictSet acc kv₀.1 PyValue.none := by
        unfold postStep
        rw [if_pos hv]
      have hk0 : kv₀.1 ∈ acc.map Prod.fst :=
        hkeys kv₀ (List.mem_cons_self _ _)
      have hkeys' : (postStep acc kv₀).map Prod.fst = acc.map Prod.fst := by
        rw [hstepdef]
        exact dictSet_keys _ hk0
      refine postFold_entries l' (postStep acc kv₀)
        (by rw [hkeys']; exact hnd) ?_ ?_ kv hmem
      · intro kv₁ h1
        rw [hkeys']
        exact hkeys kv₁ (List.mem_cons_of_mem _ h1)
      · intro kv₁ h1
        rw [hstepdef] at h1
        rcases dictSet_mem hnd h1 with rfl | ⟨h2, h3⟩
        · exact Or.inl (by simp)
        · rcases hinv kv₁ h2 with h4 | h4
          · exact Or.inl h4
          · rcases List.mem_cons.mp h4 with h5 | h5
            · exfalso
              exact h3 (by rw [← h5])
            · exact Or.inr h5
    · have hstepdef : postStep acc kv₀ = acc := by
        unfold postStep
        rw [if_neg hv]
      rw [hstepdef] at hmem
      refine postFold_entries l' acc hnd
        (fun kv₁ h1 => hkeys kv₁ (List.mem_cons_of_mem _ h1)) ?_ kv hmem
      intro kv₁ h1
      rcases hinv kv₁ h1 with h4 | h4
      · exact Or.inl h4
      · rcases List.mem_cons.mp h4 with h5 | h5
        · exfalso
          exact hv (by rw [← h5])
        · exact Or.inr h5

/-- Generic preservation along a name fold whose step only writes the
iterated name and only when that name is absent. -/
theorem fold_preserves_some {g : ParsedArgs → String → ParsedArgs}
    (hS1 : ∀ kw n t, ¬t = n → lookupPA (g kw n) t = lookupPA kw t)
    (hS2 : ∀ kw n v, lookupPA kw n = some v → g kw n = kw) :
    ∀ (l : List String) (kw : ParsedArgs) (t : String) (v : PyValue),
      lookupPA kw t = some v → lookupPA (l.foldl g kw) t = some v
  | [], _, _, _, h => h
  | n :: l', kw, t, v, h => by
    rw [List.foldl_cons]
    have hstep : lookupPA (g kw n) t = some v := by
      by_cases ht : t = n
      · subst ht
        rw [hS2 kw t v h]
        exact h
      · rw [hS1 kw n t ht]
        exact h
    exact fold_preserves_some hS1 hS2 l' (g kw n) t v hstep

theorem fold_no_touch {g : ParsedArgs → String → ParsedArgs}
    (hS1 : ∀ kw n t, ¬t = n → lookupPA (g kw n) t = lookupPA kw t) :
    ∀ (l : List String) (kw : ParsedArgs) (t : String),
      t ∉ l → lookupPA (l.foldl g kw) t = lookupPA kw t
  | [], _, _, _ => rfl
  | n :: l', kw, t, h => by
    rw [List.foldl_cons]
    have htn : ¬t = n := fun hh => h (hh ▸ List.mem_cons_self n l')
    rw [fold_no_touch hS1 l' (g kw n) t
        (fun hh => h (List.mem_cons_of_mem _ hh)),
      hS1 kw n t htn]

theorem injectPositionalDefault_S1 (defaults : ParsedArgs)
    (pp : List String) :
    ∀ kw n t, ¬t = n →
      lookupPA (injectPositionalDefault defaults pp kw n) t
        = lookupPA kw t := by
  intro kw n t ht
  unfold injectPositionalDefault
  split_ifs with h
  · rcases hd : lookupPA defaults n with _ | v
    · rfl
    · exact lookupPA_dictSet_ne kw v ht
  · rfl

theorem injectPositionalDefault_S2 (defaults : ParsedArgs)
    (pp : List String) :
    ∀ kw n v, lookupPA kw n = some v →
      injectPositionalDefault defaults pp kw n = kw := by
  intro kw n v h
  unfold injectPositionalDefault
  rw [if_neg (fun hc => by rw [h] at hc; exact absurd hc.2 (by simp))]

theorem injectOptionalDefault_S1 (defaults : ParsedArgs) :
    ∀ kw n t, ¬t = n →
      lookupPA (injectOptionalDefault defaults kw n) t = lookupPA kw t := by
  intro kw n t ht
  unfold injectOptionalDefault
  split_ifs with h
  · rcases hd : lookupPA defaults n with _ | v
    · rfl
    · exact lookupPA_dictSet_ne kw v ht
  · rfl

theorem injectOptionalDefault_S2 (defaults : ParsedArgs) :
    ∀ kw n v, lookupPA kw n = some v →
      injectOptionalDefault defaults kw n = kw := by
  intro kw n v h
  unfold injectOptionalDefault
  rw [if_neg (by rw [h]; simp)]

theorem set_run_default_ne (paramNames : List String) (g : Option PyValue)
    (option t : String) (kw : ParsedArgs) (h : ¬t = option) :
    lookupPA (set_run_default paramNames g option kw) t = lookupPA kw t := by
  unfold set_run_default
  split_ifs with hc
  · rcases g with _ | gv
    · rfl
    · exact lookupPA_dictSet_ne kw gv h
  · rfl

theorem set_run_default_of_some (paramNames : List String)
    (g : Option PyValue) (option : String) (kw : ParsedArgs) {v : PyValue}
    (h : lookupPA kw option = some v) :
    set_run_default paramNames g option kw = kw := by
  unfold set_run_default
  rw [if_neg (fun hc => by rw [h] at hc; exact absurd hc.2 (by simp))]

theorem set_run_default_preserves_some (paramNames : List String)
    (g : Option PyValue) (option t : String) (kw : ParsedArgs) {v : PyValue}
    (h : lookupPA kw t = some v) :
    lookupPA (set_run_default paramNames g option kw) t = some v := by
  by_cases ht : t = option
  · subst ht
    rw [set_run_default_of_some paramNames g t kw h]
    exact h
  · rw [set_run_default_ne paramNames g option t kw ht]
    exact h

theorem injectOptional_fold_injects (defaults : ParsedArgs) :
    ∀ (l : List String) (kw : ParsedArgs) (t : String) (v : PyValue),
      t ∈ l → lookupPA kw t = Option.none → lookupPA defaults t = some v →
      lookupPA (l.foldl (injectOptionalDefault defaults) kw) t = some v
  | [], _, _, _, hmem, _, _ => absurd hmem (by simp)
  | n :: l', kw, t, v, hmem, hkw, hd => by
    rw [List.foldl_cons]
    by_cases ht : t = n
    · subst ht
      have hstep : lookupPA (injectOptionalDefault defaults kw t) t
          = some v := by
        unfold injectOptionalDefault
        rw [if_pos hkw, hd]
        exact lookupPA_dictSet_self kw t v
      exact fold_preserves_some (injectOptionalDefault_S1 defaults)
        (injectOptionalDefault_S2 defaults) l' _ t v hstep
    · have hkw' : lookupPA (injectOptionalDefault defaults kw n) t
          = Option.none := by
        rw [injectOptionalDefault_S1 defaults kw n t ht]
        exact hkw
      have hmem' : t ∈ l' := by
        rcases List.mem_cons.mp hmem with h1 | h1
        · exact absurd h1 ht
        · exact h1
      exact injectOptional_fold_injects defaults l' _ t v hmem' hkw' hd

theorem injectOptional_fold_none (defaults : ParsedArgs) :
    ∀ (l : List String) (kw : ParsedArgs) (t : String),
      lookupPA kw t = Option.none → lookupPA defaults t = Option.none →
      lookupPA (l.foldl (injectOptionalDefault defaults) kw) t = Option.none
  | [], _, _, h, _ => h
  | n :: l', kw, t, h, hd => by
    rw [List.foldl_cons]
    have hstep : lookupPA (injectOptionalDefault defaults kw n) t
        = Option.none := by
      by_cases ht : t = n
      · subst ht
        unfold injectOptionalDefault
        rw [if_pos h, hd]
        exact h
      · rw [injectOptionalDefault_S1 defaults kw n t ht]
        exact h
    exact injectOptional_fold_none defaults l' _ t hstep hd

end Taskrunner

/-- C4: optional/keyword resolution precedence.  For a command invocation
resolved by `callResolveKwargs` and an optional (non-positional)
parameter: an explicitly passed call value always wins; otherwise a
configured default override for the parameter is injected — and only
when the parameter is absent from the explicit call arguments; otherwise
— when no configured default exists and no run-level `echo`/`hide`
global applies — the parameter's declared default is the final value. -/
theorem C4_resolution_precedence
    (paramNames positionalNames optionalNames : List String)
    (defaults : Taskrunner.ParsedArgs) (args : List Taskrunner.PyValue)
    (kwargs kwargs' : Taskrunner.ParsedArgs)
    (runEcho runHide : Option Taskrunner.PyValue) (name : String)
    (declared : Taskrunner.PyValue)
    (hopt : name ∈ optionalNames) (hpos : name ∉ positionalNames)
    (hok : Taskrunner.callResolveKwargs paramNames positionalNames
        optionalNames defaults args kwargs runEcho runHide = .ok kwargs') :
    (∀ v, Taskrunner.lookupPA kwargs name = some v →
        Taskrunner.finalOptionalValue kwargs' name declared = v)
      ∧ (Taskrunner.lookupPA kwargs name = Option.none →
          ∀ v, Taskrunner.lookupPA defaults name = some v →
            Taskrunner.finalOptionalValue kwargs' name declared = v)
      ∧ (Taskrunner.lookupPA kwargs name = Option.none →
          Taskrunner.lookupPA defaults name = Option.none →
          ¬name = "echo" → ¬name = "hide" →
          Taskrunner.finalOptionalValue kwargs' name declared = declared) := by
  unfold Taskrunner.callResolveKwargs at hok
  split_ifs at hok with hdef hbad
  · have hkw : kwargs'
        = Taskrunner.set_run_default paramNames runHide "hide"
            (Taskrunner.set_run_default paramNames runEcho "echo" kwargs) :=
      (Except.ok.inj hok).symm
    refine ⟨?_, ?_, ?_⟩
    · intro v hv
      rw [hkw]
      unfold Taskrunner.finalOptionalValue
      rw [Taskrunner.set_run_default_preserves_some _ _ _ _ _
          (Taskrunner.set_run_default_preserves_some _ _ _ _ _ hv)]
      rfl
    · intro _ v hdv
      rw [hdef] at hdv
      exact absurd hdv (by simp [Taskrunner.lookupPA])
    · intro hnone _ hne hnh
      rw [hkw]
      unfold Taskrunner.finalOptionalValue
      rw [Taskrunner.set_run_default_ne _ _ _ _ _ hnh,
        Taskrunner.set_run_default_ne _ _ _ _ _ hne, hnone]
      rfl
  · have hok' : Except.ok
        (Taskrunner.set_run_default paramNames runHide "hide"
          (Taskrunner.set_run_default paramNames runEcho "echo"
            (optionalNames.foldl
              (Taskrunner.injectOptionalDefault defaults)
              (positionalNames.foldl
                (Taskrunner.injectPositionalDefault defaults
                  ((List.zip positionalNames args).map Prod.fst))
                kwargs))))
        = (Except.ok kwargs' : Except String Taskrunner.ParsedArgs) := hok
    have hkw : kwargs'
        = Taskrunner.set_run_default paramNames runHide "hide"
            (Taskrunner.set_run_default paramNames runEcho "echo"
              (optionalNames.foldl
                (Taskrunner.injectOptionalDefault defaults)
                (positionalNames.foldl
                  (Taskrunner.injectPositionalDefault defaults
                    ((List.zip positionalNames args).map Prod.fst))
                  kwargs))) :=
      (Except.ok.inj hok').symm
    refine ⟨?_, ?_, ?_⟩
    · intro v hv
      rw [hkw]
      unfold Taskrunner.finalOptionalValue
      rw [Taskrunner.set_run_default_preserves_some _ _ _ _ _
        (Taskrunner.set_run_default_preserves_some _ _ _ _ _
          (Taskrunner.fold_preserves_some
            (Taskrunner.injectOptionalDefault_S1 defaults)
            (Taskrunner.injectOptionalDefault_S2 defaults) _ _ _ _
            (Taskrunner.fold_preserves_some
              (Taskrunner.injectPositionalDefault_S1 defaults _)
              (Taskrunner.injectPositionalDefault_S2 defaults _) _ _ _ _ hv)))]
      rfl
    · intro hnone v hdv
      rw [hkw]
      unfold Taskrunner.finalOptionalValue
      have h1 : Taskrunner.lookupPA
          (positionalNames.foldl
            (Taskrunner.injectPositionalDefault defaults
              ((List.zip positionalNames args).map Prod.fst)) kwargs) name
          = Option.none := by
        rw [Taskrunner.fold_no_touch
          (Taskrunner.injectPositionalDefault_S1 defaults _) _ _ _ hpos]
        exact hnone
      have h2 := Taskrunner.injectOptional_fold_injects defaults
        optionalNames _ name v hopt h1 hdv
      rw [Taskrunner.set_run_default_preserves_some _ _ _ _ _
        (Taskrunner.set_run_default_preserves_some _ _ _ _ _ h2)]
      rfl
    · intro hnone hdnone hne hnh
      rw [hkw]
      unfold Taskrunner.finalOptionalValue
      have h1 : Taskrunner.lookupPA
          (positionalNames.foldl
            (Taskrunner.injectPositionalDefault defaults
              ((List.zip positionalNames args).map Prod.fst)) kwargs) name
          = Option.none := by
        rw [Taskrunner.fold_no_touch
          (Taskrunner.injectPositionalDefault_S1 defaults _) _ _ _ hpos]
        exact hnone
      have h2 := Taskrunner.injectOptional_fold_none defaults
        optionalNames _ name h1 hdnone
      rw [Taskrunner.set_run_default_ne _ _ _ _ _ hnh,
        Taskrunner.set_run_default_ne _ _ _ _ _ hne, h2]
      rfl

/-- Witness for C4 at a command with one optional parameter `verbose`, a
configured default override for it, and an empty call. -/
theorem C4_resolution_precedence_witness :
    "verbose" ∈ ["verbose"]
      ∧ "verbose" ∉ ([] : List String)
      ∧ Taskrunner.callResolveKwargs ["help", "verbose"] [] ["verbose"]
          [("verbose", Taskrunner.PyValue.str "cfg")] [] [] Option.none
          Option.none
        = .ok [("verbose", Taskrunner.PyValue.str "cfg")]
      ∧ Taskrunner.finalOptionalValue
          [("verbose", Taskrunner.PyValue.str "cfg")] "verbose"
          (Taskrunner.PyValue.str "decl")
        = Taskrunner.PyValue.str "cfg" :=
  ⟨by decide, by decide, by decide,
    (C4_resolution_precedence ["help", "verbose"] [] ["verbose"]
        [("verbose", Taskrunner.PyValue.str "cfg")] [] []
        [("verbose", Taskrunner.PyValue.str "cfg")] Option.none Option.none
        "verbose" (Taskrunner.PyValue.str "decl") (by decide) (by decide)
        (by decide)).2.1 rfl (Taskrunner.PyValue.str "cfg") (by decide)⟩

/-- C9: the `parse_args` post-processing replaces every parsed value
equal to the empty string with null: any key of the parsed mapping keeps
its value except that an empty-string value becomes `None`, and no entry
of the returned mapping carries an empty-string value — so no parameter
is delivered to the implementation with an empty-string value coming
from the command line. -/
theorem C9_empty_string_replaced (m : Taskrunner.ParsedArgs)
    (hnd : (m.map Prod.fst).Nodup) :
    (∀ k v, Taskrunner.lookupPA m k = some v →
        Taskrunner.lookupPA (Taskrunner.parse_args_post m) k
          = some (if v = Taskrunner.PyValue.str ""
              then Taskrunner.PyValue.none else v))
      ∧ ∀ kv ∈ Taskrunner.parse_args_post m,
          ¬kv.2 = Taskrunner.PyValue.str "" := by
  constructor
  · intro k v h
    by_cases hv : v = Taskrunner.PyValue.str ""
    · subst hv
      rw [if_pos rfl]
      unfold Taskrunner.parse_args_post
      exact Taskrunner.postFold_replaces m m k _
        (Taskrunner.lookupPA_mem h) hnd h
    · rw [if_neg hv]
      have hall : ∀ v', (k, v') ∈ m → ¬v' = Taskrunner.PyValue.str "" := by
        intro v' hmem heq
        have h2 := Taskrunner.lookupPA_of_mem_nodup hnd hmem
        rw [h] at h2
        exact hv (by rw [Option.some.inj h2]; exact heq)
      unfold Taskrunner.parse_args_post
      rw [Taskrunner.postFold_untouched m m k hall]
      exact h
  · intro kv hmem
    unfold Taskrunner.parse_args_post at hmem
    refine Taskrunner.postFold_entries m m hnd ?_ ?_ kv hmem
    · intro kv₀ h0
      exact List.mem_map.mpr ⟨kv₀, h0, rfl⟩
    · intro kv₁ h1
      by_cases hv : kv₁.2 = Taskrunner.PyValue.str ""
      · refine Or.inr ?_
        have heq : (kv₁.1, Taskrunner.PyValue.str "") = kv₁ := by
          rcases kv₁ with ⟨k1, v1⟩
          simp only at hv
          rw [hv]
        rw [heq]
        exact h1
      · exact Or.inl hv

/-- Witness for C9 at a mapping with an empty-string entry. -/
theorem C9_empty_string_replaced_witness :
    (([("a", Taskrunner.PyValue.str ""),
       ("b", Taskrunner.PyValue.str "x")].map Prod.fst).Nodup)
      ∧ Taskrunner.lookupPA
          (Taskrunner.parse_args_post
            [("a", Taskrunner.PyValue.str ""),
             ("b", Taskrunner.PyValue.str "x")]) "a"
        = some Taskrunner.PyValue.none :=
  ⟨by decide, by
    have h := (C9_empty_string_replaced
        [("a", Taskrunner.PyValue.str ""), ("b", Taskrunner.PyValue.str "x")]
        (by decide)).1 "a" (Taskrunner.PyValue.str "") (by decide)
    simpa using h⟩

/-- C5 counterexample: the three names of the claim do not all normalize to
one canonical name.  `Command.normalize_name` performs no camel-to-snake
unification, so `HTTPRequest ↦ httprequest` while
`my_http_request ↦ my-http-request`; and even routing through
`camel_to_underscore` first, `HTTPRequest ↦ http-request` differs from
`my_http_request ↦ my-http-request`. -/
theorem C5_counterexample :
    Taskrunner.normalize_name "HTTPRequest" = some "httprequest"
      ∧ Taskrunner.normalize_name "httpRequest" = some "httprequest"
      ∧ Taskrunner.normalize_name "my_http_request" = some "my-http-request"
      ∧ Taskrunner.normalize_name "HTTPRequest"
          ≠ Taskrunner.normalize_name "my_http_request"
      ∧ Taskrunner.camel_to_underscore "HTTPRequest"
          ≠ Taskrunner.camel_to_underscore "my_http_request"
      ∧ Taskrunner.normalize_name (Taskrunner.camel_to_underscore "HTTPRequest")
          ≠ Taskrunner.normalize_name
              (Taskrunner.camel_to_underscore "my_http_request") := by
  decide

/-- C5 (amended): name normalization is idempotent — normalizing any
successfully normalized name returns it unchanged — and `HTTPRequest` and
`httpRequest` normalize to the same canonical name; `my_http_request`
however normalizes to a different name (no camel/snake unification is
performed). -/
theorem C5_amended_normalization {s r : String}
    (h : Taskrunner.normalize_name s = some r) :
    Taskrunner.normalize_name r = some r
      ∧ Taskrunner.normalize_name "HTTPRequest"
          = Taskrunner.normalize_name "httpRequest" :=
  ⟨Taskrunner.normalize_name_idem h, by decide⟩

/-- Witness for C5 (amended) at the concrete input `"HTTPRequest"`. -/
theorem C5_amended_normalization_witness :
    Taskrunner.normalize_name "HTTPRequest" = some "httprequest"
      ∧ (Taskrunner.normalize_name "httprequest" = some "httprequest"
          ∧ Taskrunner.normalize_name "HTTPRequest"
              = Taskrunner.normalize_name "httpRequest") :=
  ⟨by decide, @C5_amended_normalization "HTTPRequest" "httprequest" (by decide)⟩

/-- C7: tolerant JSON decoding maps `"3"` to the integer 3, the non-JSON
string `"foo"` to itself without an error, and the empty value to null. -/
theorem C7_tolerant_json_decode :
    Taskrunner.load_json_value "3" = some (Taskrunner.PyValue.int 3)
      ∧ Taskrunner.load_json_value "foo" = some (Taskrunner.PyValue.str "foo")
      ∧ Taskrunner.load_json_value "" = some Taskrunner.PyValue.none := by
  decide

/-- C1 counterexample: `--env` is recognized as a runner option, its
parameter takes a value, and no value was supplied inline — yet the
following token `--unknown` is not consumed as its value: the loop breaks
at the option-shaped unknown token, which becomes the head of the
remainder. -/
theorem C1_counterexample :
    Taskrunner.parse_optional "--env"
        = some ⟨true, "--env", Option.none⟩
      ∧ (Taskrunner.argMapLookup Taskrunner.runArgMap "--env").map
            Taskrunner.Param.takes_value = some true
      ∧ Taskrunner.partition_argv ["--env", "--unknown"]
          = (["--env", "--unknown"], ["--env"], ["--unknown"]) := by
  decide

/-- C1 (amended): for every argument list without a literal `--`, the
partitioner walks tokens from the left consuming each token recognized as
a runner option; after a recognized value-taking option with no inline
value, the following token is consumed as its value only when it does not
itself have the shape of an option — an option-shaped follower is instead
treated as a new option token, consumed when recognized and ending the
walk otherwise; after a recognized option that takes no value, a
following non-option-shaped token ends the walk unless it names an
attribute of the empty tuple (the `hasattr((), arg)` quirk), in which
case it is consumed; the first token consumed by no rule heads the
returned command-invocation remainder.  Formally: the partition result is
exactly the walk `specWalk` implementing this description. -/
theorem C1_amended (argv : List String) (h : "--" ∉ argv) :
    Taskrunner.partition_argv argv
      = (argv, (Taskrunner.specWalk argv).1, (Taskrunner.specWalk argv).2) := by
  unfold Taskrunner.partition_argv
  by_cases hnil : argv = []
  · subst hnil
    rfl
  · rw [if_neg hnil, if_neg (by simpa using h),
      Taskrunner.partitionLoop_eq_specWalk]

/-- Witness for C1 (amended) at a concrete chain
`run --env prod ls`. -/
theorem C1_amended_witness :
    "--" ∉ ["--env", "prod", "ls"]
      ∧ Taskrunner.partition_argv ["--env", "prod", "ls"]
          = (["--env", "prod", "ls"],
             (Taskrunner.specWalk ["--env", "prod", "ls"]).1,
             (Taskrunner.specWalk ["--env", "prod", "ls"]).2) :=
  ⟨by decide, C1_amended ["--env", "prod", "ls"] (by decide)⟩

/-- C6: an argument list containing a literal `--` is split
unconditionally at the first `--`: everything before it (which contains
no `--`) is returned as the runner's own options and everything after it
as the command-invocation sequence, with no per-token recognition. -/
theorem C6_double_dash_split (argv : List String) (h : "--" ∈ argv) :
    ∃ l r, argv = l ++ "--" :: r ∧ "--" ∉ l
      ∧ Taskrunner.partition_argv argv = (argv, l, r) := by
  obtain ⟨heq, hnot⟩ := Taskrunner.takeWhile_dropWhile_split argv h
  refine ⟨argv.takeWhile (· ≠ "--"), (argv.dropWhile (· ≠ "--")).tail,
    heq, hnot, ?_⟩
  unfold Taskrunner.partition_argv
  rw [if_neg (by rintro rfl; exact absurd h (by simp)),
    if_pos (by simpa using h)]

/-- Witness for C6 at `["-x", "--", "ls"]`. -/
theorem C6_double_dash_split_witness :
    "--" ∈ ["-x", "--", "ls"]
      ∧ ∃ l r, ["-x", "--", "ls"] = l ++ "--" :: r ∧ "--" ∉ l
          ∧ Taskrunner.partition_argv ["-x", "--", "ls"]
              = (["-x", "--", "ls"], l, r) :=
  ⟨by decide, C6_double_dash_split ["-x", "--", "ls"] (by decide)⟩

/-- C10: for every non-empty argument list without a literal `--`, the
partitioner's two outputs reconstruct the input: the runner-option list
concatenated with the remainder is exactly the original argument list
(so the runner-option list is a prefix of the input and no token is
dropped, altered or duplicated). -/
theorem C10_partition_reconstructs (argv : List String) (hne : argv ≠ [])
    (h : "--" ∉ argv) :
    (Taskrunner.partition_argv argv).2.1
        ++ (Taskrunner.partition_argv argv).2.2 = argv := by
  unfold Taskrunner.partition_argv
  rw [if_neg hne, if_neg (by simpa using h)]
  exact Taskrunner.partitionLoop_append argv Option.none

/-- Witness for C10 at `["--debug", "ls", "-l"]`. -/
theorem C10_partition_reconstructs_witness :
    (["--debug", "ls", "-l"] : List String) ≠ []
      ∧ "--" ∉ ["--debug", "ls", "-l"]
      ∧ (Taskrunner.partition_argv ["--debug", "ls", "-l"]).2.1
          ++ (Taskrunner.partition_argv ["--debug", "ls", "-l"]).2.2
        = ["--debug", "ls", "-l"] :=
  ⟨by decide, by decide,
    C10_partition_reconstructs ["--debug", "ls", "-l"] (by decide) (by decide)⟩

/-- C2 counterexample: for `def cmd(config, foo=False, no_foo=None)` the
option string `--no-foo` is allocated twice — as the inverse option of the
boolean `foo` and as the long option of `no-foo` — yet `param_map` reports
no configuration error, and in the resulting arg map `--no-foo` no longer
refers to `foo`'s descriptor (the later assignment silently overwrote the
earlier one), contradicting both "a configuration error is raised at
construction time" and "every registered option string maps to exactly one
descriptor". -/
theorem C2_counterexample :
    Taskrunner.param_map Taskrunner.noFooCmdParams
        = .ok [("help", ["-h", "--help"]),
               ("foo", ["-f", "--foo", "--no-foo"]),
               ("no-foo", ["-n", "--no-foo"])]
      ∧ Taskrunner.fooParam.name ≠ Taskrunner.noFooParam.name
      ∧ (Taskrunner.arg_map Taskrunner.noFooCmdParams).map
            (List.map (fun e => (e.1, e.2.name)))
          = .ok [("-h", "help"), ("--help", "help"), ("-f", "foo"),
                 ("--foo", "foo"), ("--no-foo", "no-foo"), ("-n", "no-foo")] := by
  decide

/-- C2 (amended): two parameters configured with the same explicit short
option make option allocation (`param_map`, a function of the parameter
list alone, evaluated before any argv token is examined) fail with a
configuration error; and after a successful allocation every short-shaped
option string belongs to at most one parameter.  Long option strings,
however, can collide without any error (counterexample
`C2_counterexample`). -/
theorem C2_amended :
    (∀ (params : List Taskrunner.Param) (p q : Taskrunner.Param) (s : String),
        p ∈ params → q ∈ params → p.name ≠ q.name →
        p.short_option = some s → q.short_option = some s →
        Taskrunner.allocatable p → Taskrunner.allocatable q →
        ∃ e, Taskrunner.param_map params = .error e)
    ∧ (∀ (params : List Taskrunner.Param)
        (alloc : List (Taskrunner.Param × List String))
        (usedF : Taskrunner.UsedShort),
        (∀ p ∈ params, Taskrunner.isShortOpt p.real_name = false) →
        Taskrunner.allocAll (params.map Taskrunner.Param.name)
            (Taskrunner.allocOrder params) [] = .ok (alloc, usedF) →
        ∀ (p : Taskrunner.Param) (ns_p : List String) (q : Taskrunner.Param)
          (ns_q : List String) (s : String),
          (p, ns_p) ∈ alloc → (q, ns_q) ∈ alloc → p.name ≠ q.name →
          Taskrunner.isShortOpt s = true →
          s ∈ ns_p → s ∈ ns_q → False) := by
  constructor
  · intro params p q s hp hq hne hps hqs hap haq
    rcases hAA : Taskrunner.allocAll (params.map Taskrunner.Param.name)
        (Taskrunner.allocOrder params) [] with e | ⟨alloc, usedF⟩
    · exact ⟨e, by simp only [Taskrunner.param_map, hAA]⟩
    · exfalso
      have h1 := Taskrunner.allocAll_manual hAA
        (Taskrunner.mem_allocOrder_of_mem hp (by rw [hps]; rfl)) hap hps
      have h2 := Taskrunner.allocAll_manual hAA
        (Taskrunner.mem_allocOrder_of_mem hq (by rw [hqs]; rfl)) haq hqs
      rw [h1] at h2
      exact hne (Option.some.inj h2)
  · intro params alloc usedF hreal hAA p ns_p q ns_q s hpmem hqmem hne
      hshort hsp hsq
    have hrealOrder : ∀ r ∈ Taskrunner.allocOrder params,
        Taskrunner.isShortOpt r.real_name = false :=
      fun r hr => hreal r (Taskrunner.mem_of_mem_allocOrder hr)
    have h1 := Taskrunner.allocAll_registered hAA hrealOrder hpmem hshort hsp
    have h2 := Taskrunner.allocAll_registered hAA hrealOrder hqmem hshort hsq
    rw [h1] at h2
    exact hne (Option.some.inj h2)

/-- Witness for C2 (amended): a command whose parameters `alpha` and
`beta` both claim the explicit short option `-x` fails allocation. -/
theorem C2_amended_witness :
    Taskrunner.alphaParam ∈ Taskrunner.dupShortCmdParams
      ∧ Taskrunner.betaParam ∈ Taskrunner.dupShortCmdParams
      ∧ Taskrunner.alphaParam.name ≠ Taskrunner.betaParam.name
      ∧ Taskrunner.alphaParam.short_option = some "-x"
      ∧ Taskrunner.betaParam.short_option = some "-x"
      ∧ Taskrunner.allocatable Taskrunner.alphaParam
      ∧ Taskrunner.allocatable Taskrunner.betaParam
      ∧ ∃ e, Taskrunner.param_map Taskrunner.dupShortCmdParams = .error e :=
  ⟨by decide, by decide, by decide, rfl, rfl, by decide, by decide,
    C2_amended.1 Taskrunner.dupShortCmdParams Taskrunner.alphaParam
      Taskrunner.betaParam "-x" (by decide) (by decide) (by decide) rfl rfl
      (by decide) (by decide)⟩

/-- C3 counterexample: for `def cmd(config, echo=False)` the code
allocates `-E` to `echo` even though `-e` is free; the claim's procedure
— try the name's first character, then its uppercase form, taking the
first not already used — would allocate `-e`. -/
theorem C3_counterexample :
    Taskrunner.param_map Taskrunner.echoCmdParams
        = .ok [("help", ["-h", "--help"]),
               ("echo", ["-E", "--echo", "--no-echo"])]
      ∧ Taskrunner.claimShortCandidates "echo" = ['e', 'E']
      ∧ Taskrunner.firstFreeShort "echo" [("-h", "help")]
          (Taskrunner.claimShortCandidates "echo") = some "-e"
      ∧ "-e" ∉ ["-E", "--echo", "--no-echo"]
      ∧ Taskrunner.lookupUsed [("-h", "help")] "-e" = Option.none := by
  decide

/-- C3 (amended): automatic short-option allocation follows the policy of
`amendedShortCandidates` — `help ↦ h`, `echo ↦ E`, `hide ↦ H`, other
`e`-names try first char then uppercase only when no `echo` parameter
exists, other `h`-names try only the uppercase form and only when no
`hide` parameter exists, all other names try first char then uppercase —
taking the first candidate not already used for another name, recording
it, and allocating no short option when no candidate is free; the built-in
help descriptor's `-h` comes from its manual short option. -/
theorem C3_amended (paramNames : List String) (used : Taskrunner.UsedShort)
    (p : Taskrunner.Param)
    (hpos : p.is_positional = false) (hkw : p.is_keyword_only = false)
    (hshort : p.short_option = Option.none)
    (hund : Taskrunner.startsUnderscore p.name = false) :
    Taskrunner.arg_names_for_param paramNames used p
      = .ok (Taskrunner.appendLongNames p
              (Taskrunner.firstFreeShort p.name used
                (Taskrunner.amendedShortCandidates p.name paramNames)).toList,
            match Taskrunner.firstFreeShort p.name used
                (Taskrunner.amendedShortCandidates p.name paramNames) with
            | some s => Taskrunner.insertUsed used s p.name
            | Option.none => used)
      ∧ Taskrunner.helpParam.short_option = some "-h" := by
  constructor
  · simp only [Taskrunner.arg_names_for_param, hund, hpos, hkw,
      Bool.false_eq_true, if_false]
    rw [hshort]
    dsimp only
    rw [Taskrunner.codeCandidates_eq_amended,
      Taskrunner.pickShort_eq_firstFreeShort]
  · rfl

/-- Witness for C3 (amended) at the parameter `verbose` of a command that
also has the help parameter holding `-h`. -/
theorem C3_amended_witness :
    Taskrunner.verboseParam.is_positional = false
      ∧ Taskrunner.verboseParam.short_option = Option.none
      ∧ Taskrunner.arg_names_for_param ["help", "verbose"] [("-h", "help")]
          Taskrunner.verboseParam
        = .ok (["-v", "--verbose"], [("-h", "help"), ("-v", "verbose")]) :=
  ⟨rfl, rfl,
    ((C3_amended ["help", "verbose"] [("-h", "help")] Taskrunner.verboseParam
        (by decide) (by decide) (by decide) (by decide)).1).trans (by decide)⟩

/-- C8: for every Result value, truthiness iff return code is zero;
`succeeded` holds exactly when the return code is 0 and `failed` is its
negation. -/
theorem C8_result_truthiness (args : List String) (rc : Int)
    (stdout stderr : String) :
    ((Taskrunner.Result.make args rc stdout stderr).toBool = true ↔ rc = 0)
      ∧ ((Taskrunner.Result.make args rc stdout stderr).succeeded = true ↔ rc = 0)
      ∧ (Taskrunner.Result.make args rc stdout stderr).failed
          = !(Taskrunner.Result.make args rc stdout stderr).succeeded := by
  refine ⟨?_, ?_, ?_⟩ <;>
    simp [Taskrunner.Result.make, Taskrunner.Result.toBool]
